/-
  A shallow embedding of CaDiCaL's unit-propagation engine
  (`src/propagate.cpp`) in Lean 4, together with proofs of its main
  structural and semantic properties.

  The embedding translates the C++ code as directly as possible:
  the solver state (`Internal`) carries the literal-indexed value store,
  the trail with its propagation cursor `propagated`, the clause arena,
  the per-literal watch lists, the conflict marker and the statistics
  counters.  Mutation becomes explicit state passing; the unbounded
  `while` loop of `propagate` becomes a fuel-indexed loop whose fuel is
  provably sufficient on well-formed states.
-/
import Mathlib

namespace CaDiCaL

/-! ### Basic helpers -/

/-- Pointwise update of an `Int`-indexed function. -/
def updF {α : Type} (f : Int → α) (k : Int) (v : α) : Int → α :=
  fun x => if x = k then v else f x

@[simp] theorem updF_self {α : Type} (f : Int → α) (k : Int) (v : α) :
    updF f k v k = v := by
  simp [updF]

theorem updF_ne {α : Type} (f : Int → α) {k x : Int} (v : α) (h : x ≠ k) :
    updF f k v x = f x := by
  simp [updF, h]

theorem updF_apply {α : Type} (f : Int → α) (k x : Int) (v : α) :
    updF f k v x = if x = k then v else f x := rfl

/-! ### Data model

`Watch`, `Clause` and `Var` mirror the corresponding C++ structures,
restricted to the fields `propagate.cpp` reads or writes.  Clauses are
referenced by their index (`Nat`) into the clause arena. -/

/-- A watch record: blocking literal, clause size at attach time, and the
watched clause (by arena index). -/
structure Watch where
  blit : Int
  size : Nat
  clause : Nat
deriving DecidableEq, Repr

/-- A clause: its literals, the lazy-deletion `garbage` flag, and (for long
clauses) the cached search position `pos` guarded by `havePos`
(the `have.pos` bit in the C++ code). -/
structure Clause where
  lits : List Int
  garbage : Bool
  havePos : Bool
  pos : Nat
deriving DecidableEq, Repr

/-- Per-variable assignment metadata (`Var` in the C++ code): decision
level, trail position, and the reason clause (arena index), `none` for
decisions and root units. -/
structure Var where
  level : Nat
  trail : Nat
  reason : Option Nat
deriving DecidableEq, Repr

/-- The statistics counters touched by `propagate.cpp`. -/
structure Stats where
  fixed : Nat
  propagations : Nat
  probagations : Nat
  conflicts : Nat
deriving DecidableEq, Repr

/-- The solver state visible to `propagate.cpp`: value store, trail and
cursor, clause arena, watch lists, conflict marker, per-variable tables
and mode flags.  `vars` is the number of variables (used to bound loop
fuel). -/
structure Internal where
  vals : Int → Int
  level : Nat
  vars : Nat
  vtab : Int → Var
  phases : Int → Int
  ftab : Int → Nat
  eliminated : Int → Bool
  units : List Int
  trail : List Int
  propagated : Nat
  conflict : Option Nat
  arena : List Clause
  watches : Int → List Watch
  simplifying : Bool
  stats : Stats

/-- `sign (lit)` from `util.hpp`: `-1` for negative literals, `1` otherwise. -/
def sign (lit : Int) : Int :=
  if lit < 0 then -1 else 1

/-- `vidx (lit)`: the variable index, i.e. the absolute value of the literal. -/
def vidx (lit : Int) : Int :=
  if lit < 0 then -lit else lit

/-- `val (lit)`: the truth value of a literal (`> 0` true, `< 0` false,
`0` unassigned).  The value store is literal indexed, redundantly for both
polarities. -/
def Internal.val (s : Internal) (lit : Int) : Int :=
  s.vals lit

/-- Modelled from the spec: `learn_unit_clause` is implemented outside
`propagate.cpp`; per the spec it commits the literal as a permanent
(root-level) unit and increases the global fixed-assignment count
`stats.fixed`. -/
def learn_unit_clause (s : Internal) (lit : Int) : Internal :=
  { s with units := s.units ++ [lit],
           stats := { s.stats with fixed := s.stats.fixed + 1 } }

/-- `Internal::inlined_assign` from `propagate.cpp`: record level, trail
position and reason, learn a unit if at root level, write both polarity
slots of the value store, save the phase outside simplification, record
the fixed-count epoch, and push the literal onto the trail.  (The final
prefetch hint has no semantic content and is omitted.) -/
def inlined_assign (s : Internal) (lit : Int) (reason : Option Nat) : Internal :=
  let idx := vidx lit
  let s1 := { s with vtab := updF s.vtab idx ⟨s.level, s.trail.length, reason⟩ }
  let s2 := if s1.level = 0 then learn_unit_clause s1 lit else s1
  let tmp := sign lit
  let s3 := { s2 with vals := updF (updF s2.vals idx tmp) (-idx) (-tmp) }
  let s4 := if ¬ s3.simplifying then { s3 with phases := updF s3.phases idx tmp } else s3
  let s5 := { s4 with ftab := updF s4.ftab idx s4.stats.fixed }
  { s5 with trail := s5.trail ++ [lit] }

/-- `Internal::assign_unit`. -/
def assign_unit (s : Internal) (lit : Int) : Internal :=
  inlined_assign s lit none

/-- `Internal::assign_decision`. -/
def assign_decision (s : Internal) (lit : Int) : Internal :=
  inlined_assign s lit none

/-- `Internal::assign_driving`. -/
def assign_driving (s : Internal) (lit : Int) (c : Nat) : Internal :=
  inlined_assign s lit (some c)

/-! ### The propagation engine -/

/-- The default clause used for out-of-range arena accesses (which cannot
occur on well-formed states; the C++ code dereferences a pointer). -/
def emptyClause : Clause := ⟨[], false, false, 0⟩

/-- Read a clause from the arena. -/
def getClause (s : Internal) (ci : Nat) : Clause :=
  (s.arena[ci]?).getD emptyClause

/-- Write a clause back to the arena. -/
def setClause (s : Internal) (ci : Nat) (c : Clause) : Internal :=
  { s with arena := s.arena.set ci c }

/-- Replace the whole watch list of literal `l`. -/
def withWatches (s : Internal) (l : Int) (ws : List Watch) : Internal :=
  { s with watches := updF s.watches l ws }

/-- `Internal::watch_literal`: push a watch for clause `ci` (of size
`size`, with blocking literal `blit`) onto the watch list of `l`. -/
def watch_literal (s : Internal) (l blit : Int) (ci : Nat) (size : Nat) : Internal :=
  withWatches s l (s.watches l ++ [⟨blit, size, ci⟩])

/-- `swap (lits[0], lits[1])` on a literal list. -/
def swap01 (l : List Int) : List Int :=
  match l with
  | a :: b :: t => b :: a :: t
  | _ => l

/-- `swap (lits[1], *k)` on a literal list, where `k ≥ 2` is the index of
the replacement literal found by the search. -/
def swapWatchLit (l : List Int) (k : Nat) : List Int :=
  match l with
  | a :: b :: t => a :: t.getD (k - 2) 0 :: t.set (k - 2) b
  | _ => l

/-- One linear scan `while (k != end && (v = val (*k)) < 0) k++;`:
starting at index `start`, find the first index `< stop` whose literal is
not false.  Returns the stopping index together with the value read there
(`-1` if the scan ran off `stop`, matching the initialization
`int v = -1`). -/
def findNonFalse (vals : Int → Int) (lits : List Int) (start stop : Nat) : Nat × Int :=
  if _h : start < stop then
    let v := vals (lits.getD start 0)
    if v < 0 then findNonFalse vals lits (start + 1) stop
    else (start, v)
  else (start, -1)
termination_by stop - start

/-- The watch-replacement search of `propagate.cpp` (lines 149--200),
factored out: for clauses with a cached position (`havePos`) it is the
two-phase scan from `pos` to the end and then from index 2 up to `pos`,
and the cache is always updated to the stopping index; for short clauses
it is a single scan from index 2 with no cache update.  Returns
`(k, v, newPos)`. -/
def searchReplacement (vals : Int → Int) (lits : List Int) (size pos : Nat)
    (havePos : Bool) : Nat × Int × Nat :=
  if havePos then
    let r1 := findNonFalse vals lits pos size
    if r1.2 < 0 then
      let r2 := findNonFalse vals lits 2 pos
      (r2.1, r2.2, r2.1)
    else (r1.1, r1.2, r1.1)
  else
    let r := findNonFalse vals lits 2 size
    (r.1, r.2, pos)

/-- The inner loop of `Internal::propagate`: scan the watch list of `lit`
(the negation of the literal just dequeued from the trail), compacting it
in place.  `ws` is the part not yet read (the iterator `i`), `acc` the
part already written (up to the iterator `j`); the result is the final
state together with the new contents of the list. -/
def scanWatches (lit : Int) : Internal → List Watch → List Watch → Internal × List Watch
  | s, [], acc => (s, acc)
  | s, w :: rest, acc =>
    let b := s.vals w.blit
    if 0 < b then
      -- blocking literal satisfied: keep the watch, never touch the clause
      scanWatches lit s rest (acc ++ [w])
    else if w.size = 2 then
      -- binary clause: conflict or assignment, the clause is not accessed
      if b < 0 then
        scanWatches lit { s with conflict := some w.clause } rest (acc ++ [w])
      else
        scanWatches lit (inlined_assign s w.blit (some w.clause)) rest (acc ++ [w])
    else
      let c := getClause s w.clause
      if c.garbage then
        scanWatches lit s rest (acc ++ [w])
      else
        -- normalize so that the false literal sits at position 1
        let lits1 := if c.lits.getD 0 0 = lit then swap01 c.lits else c.lits
        let u := s.vals (lits1.getD 0 0)
        if 0 < u then
          -- satisfied: just replace the blocking literal
          let s1 := setClause s w.clause { c with lits := lits1 }
          scanWatches lit s1 rest (acc ++ [{ w with blit := lits1.getD 0 0 }])
        else
          let r := searchReplacement s.vals lits1 w.size c.pos c.havePos
          let s1 := setClause s w.clause { c with lits := lits1, pos := r.2.2 }
          if 0 < r.2.1 then
            -- found a true literal: replace the blocking literal
            scanWatches lit s1 rest (acc ++ [{ w with blit := lits1.getD r.1 0 }])
          else if r.2.1 = 0 then
            -- found an unassigned replacement: move the watch
            let lits2 := swapWatchLit lits1 r.1
            let s2 := setClause s1 w.clause { c with lits := lits2, pos := r.2.2 }
            let s3 := watch_literal s2 (lits2.getD 1 0) lit w.clause w.size
            scanWatches lit s3 rest acc
          else if u = 0 then
            -- no replacement, other watched literal unassigned: unit
            scanWatches lit (inlined_assign s1 (lits1.getD 0 0) (some w.clause)) rest
              (acc ++ [w])
          else
            -- no replacement, other watched literal false: conflict, break
            ({ s1 with conflict := some w.clause }, acc ++ w :: rest)

/-- One iteration of the outer loop of `Internal::propagate`: dequeue the
next trail literal, scan the watch list of its negation and write the
compacted list back. -/
def propagateStep (s : Internal) : Internal :=
  let lit := -(s.trail.getD s.propagated 0)
  let s1 := { s with propagated := s.propagated + 1 }
  let r := scanWatches lit s1 (s1.watches lit) []
  withWatches r.1 lit r.2

/-- The outer loop `while (!conflict && propagated < trail.size ())`,
indexed by fuel. -/
def propagateLoop : Nat → Internal → Internal
  | 0, s => s
  | fuel + 1, s =>
    if s.conflict = none ∧ s.propagated < s.trail.length then
      propagateLoop fuel (propagateStep s)
    else s

/-- Fuel that provably suffices on well-formed states: the loop consumes
one trail entry per iteration and at most `vars` assignments can ever be
appended. -/
def propagateFuel (s : Internal) : Nat :=
  s.trail.length + 2 * s.vars + 1

/-- `Internal::propagate`: run the loop to completion (or conflict), then
update the propagation counters by the number of trail entries consumed
(`probagations` in simplifying mode) and, in search mode, count the
conflict.  The C++ function returns `!conflict`. -/
def propagate (s : Internal) : Internal :=
  let before := s.propagated
  let s1 := propagateLoop (propagateFuel s) s
  let delta := s1.propagated - before
  let s2 :=
    if s1.simplifying then
      { s1 with stats := { s1.stats with probagations := s1.stats.probagations + delta } }
    else
      { s1 with stats := { s1.stats with propagations := s1.stats.propagations + delta } }
  if s2.conflict.isSome ∧ ¬ s2.simplifying then
    { s2 with stats := { s2.stats with conflicts := s2.stats.conflicts + 1 } }
  else s2

/-- The Boolean result of `Internal::propagate` (`return !conflict`). -/
def propagateOk (s : Internal) : Bool :=
  (propagate s).conflict = none

/-- Modelled from the spec: initially every literal is unassigned (the
value store is initialized outside `propagate.cpp`). -/
def initialVals : Int → Int := fun _ => 0

/-! ### Invariants

`InvG L esc s` is the watch-structure invariant, generalized for use in
the middle of a watch-list scan: `L` is the literal whose list is being
scanned and `esc` the unread part of that list.  The plain state
invariant is `Inv s := InvG 0 [] s`, where the escape disjunct is
vacuous. -/

/-- Clause `c` is satisfied under the value store of `s`. -/
def satisfiedC (s : Internal) (c : Clause) : Prop :=
  ∃ l ∈ c.lits, 0 < s.vals l

/-- All literals of clause `c` are false under the value store of `s`. -/
def allFalse (s : Internal) (c : Clause) : Prop :=
  ∀ l ∈ c.lits, s.vals l < 0

/-- `x` is one of the two watched positions (the first two literals) of `c`. -/
def watchedPos (c : Clause) (x : Int) : Prop :=
  x = c.lits.getD 0 0 ∨ x = c.lits.getD 1 0

/-- Literal `x` is on the not-yet-propagated part of the trail. -/
def pendingLit (s : Internal) (x : Int) : Prop :=
  x ∈ s.trail.drop s.propagated

/-- The generalized state invariant.  The watch structure is passed as an
explicit parameter `W` (during a scan it is the actual structure with the
list of `L` replaced by the written part followed by the unread part
`esc`); everything else is read from the state `s`. -/
structure InvW (L : Int) (esc : List Watch) (W : Int → List Watch) (s : Internal) : Prop where
  symmV : ∀ l : Int, s.vals (-l) = - s.vals l
  trailOK : ∀ t ∈ s.trail, t ≠ 0 ∧ t.natAbs ≤ s.vars ∧ 0 < s.vals t
  curBound : s.propagated ≤ s.trail.length
  clauseOK : ∀ (ci : Nat) (c : Clause), s.arena[ci]? = some c →
      (∀ l ∈ c.lits, l ≠ 0 ∧ l.natAbs ≤ s.vars) ∧ c.lits.Nodup ∧
      (c.havePos = true → 2 ≤ c.pos ∧ c.pos ≤ c.lits.length)
  watchOK : ∀ (X : Int) (w : Watch), w ∈ W X →
      ∃ c : Clause, s.arena[w.clause]? = some c ∧
      w.size = c.lits.length ∧ 2 ≤ w.size ∧ w.blit ∈ c.lits ∧
      (w.size = 2 → c.lits = [X, w.blit] ∨ c.lits = [w.blit, X]) ∧
      (2 < w.size → watchedPos c X)
  uniq : ∀ (X : Int) (ci : Nat), ((W X).countP (fun w => w.clause == ci)) ≤ 1
  watchedBoth : ∀ (ci : Nat) (c : Clause), s.arena[ci]? = some c → c.garbage = false →
      (∃ w ∈ W (c.lits.getD 0 0), w.clause = ci) ∧
      (∃ w ∈ W (c.lits.getD 1 0), w.clause = ci)
  conflictOK : ∀ ci : Nat, s.conflict = some ci →
      ∃ c : Clause, s.arena[ci]? = some c ∧ allFalse s c
  propInv : s.conflict = none → ∀ (ci : Nat) (c : Clause), s.arena[ci]? = some c →
      c.garbage = false →
      satisfiedC s c ∨
      (∀ x : Int, watchedPos c x →
        0 ≤ s.vals x ∨ pendingLit s (-x) ∨ (x = L ∧ ∃ w ∈ esc, w.clause = ci))

/-- The watch-structure invariant of a quiescent state. -/
def Inv (s : Internal) : Prop := InvW 0 [] s.watches s

/-- The number of unassigned variables, used to bound the loop fuel. -/
def unassignedCount (s : Internal) : Nat :=
  (List.range s.vars).countP (fun i : Nat => decide (s.vals (((i + 1 : Nat) : Int)) = 0))

/-- The termination measure of the propagation loop. -/
def mu (s : Internal) : Nat :=
  (s.trail.length - s.propagated) + 2 * unassignedCount s

instance (c : Clause) (x : Int) : Decidable (watchedPos c x) :=
  inferInstanceAs (Decidable (x = c.lits.getD 0 0 ∨ x = c.lits.getD 1 0))

instance (s : Internal) (c : Clause) : Decidable (satisfiedC s c) :=
  inferInstanceAs (Decidable (∃ l ∈ c.lits, 0 < s.vals l))

instance (s : Internal) (c : Clause) : Decidable (allFalse s c) :=
  inferInstanceAs (Decidable (∀ l ∈ c.lits, s.vals l < 0))

instance (s : Internal) (x : Int) : Decidable (pendingLit s x) :=
  inferInstanceAs (Decidable (x ∈ s.trail.drop s.propagated))

/-! ### Concrete states

Small concrete solver states used to evaluate the engine on closed
inputs: an empty quiescent state, a state entered with the conflict
marker already set, and two mid-propagation states exercising the
binary-clause fast path. -/

/-- A finite literal-indexed table, `0` outside its domain. -/
def valsOf : List (Int × Int) → Int → Int
  | [], _ => 0
  | (k, v) :: t, x => if x = k then v else valsOf t x

/-- A finite watch-list table, `[]` outside its domain. -/
def watchesOf : List (Int × List Watch) → Int → List Watch
  | [], _ => []
  | (k, v) :: t, x => if x = k then v else watchesOf t x

/-- The empty solver state: no variables, no clauses, no assignments. -/
def demo0 : Internal :=
  { vals := fun _ => 0, level := 0, vars := 0, vtab := fun _ => ⟨0, 0, none⟩,
    phases := fun _ => 0, ftab := fun _ => 0, eliminated := fun _ => false,
    units := [], trail := [], propagated := 0, conflict := none, arena := [],
    watches := fun _ => [], simplifying := false, stats := ⟨0, 0, 0, 0⟩ }

/-- A state entered with the conflict marker already set: the falsified
(garbage) unit clause `{1}` is recorded as the conflict. -/
def confState : Internal :=
  { vals := valsOf [(1, -1), (-1, 1)], level := 0, vars := 1,
    vtab := fun _ => ⟨0, 0, none⟩, phases := fun _ => 0, ftab := fun _ => 0,
    eliminated := fun _ => false, units := [], trail := [-1], propagated := 1,
    conflict := some 0, arena := [⟨[1], true, false, 0⟩],
    watches := fun _ => [], simplifying := false, stats := ⟨0, 0, 0, 0⟩ }

/-- A mid-propagation state with the decision `-2` still pending and the
binary clauses `{1, 2}`, `{3, 2}` and `{-1, 2}` attached: scanning the
watch list of `2` first forces `-1`, then finds clause `0` falsified, and
then still assigns `3`. -/
def C1state : Internal :=
  { vals := valsOf [(2, -1), (-2, 1)], level := 1, vars := 3,
    vtab := fun _ => ⟨0, 0, none⟩, phases := fun _ => 0, ftab := fun _ => 0,
    eliminated := fun _ => false, units := [], trail := [-2], propagated := 0,
    conflict := none,
    arena := [⟨[1, 2], false, false, 0⟩, ⟨[3, 2], false, false, 0⟩,
      ⟨[-1, 2], false, false, 0⟩],
    watches := watchesOf [(2, [⟨-1, 2, 2⟩, ⟨1, 2, 0⟩, ⟨3, 2, 1⟩]),
      (1, [⟨2, 2, 0⟩]), (3, [⟨2, 2, 1⟩]), (-1, [⟨2, 2, 2⟩])],
    simplifying := false, stats := ⟨0, 0, 0, 0⟩ }

/-- A mid-propagation state with the decision `-2` still pending and one
garbage binary clause `{1, 2}` still watched: the binary fast path never
reads the garbage flag, so propagating `-2` records the conflict while
the cursor reaches the end of the trail. -/
def C4state : Internal :=
  { vals := valsOf [(1, -1), (-1, 1), (2, -1), (-2, 1)], level := 0, vars := 2,
    vtab := fun _ => ⟨0, 0, none⟩, phases := fun _ => 0, ftab := fun _ => 0,
    eliminated := fun _ => false, units := [], trail := [-2], propagated := 0,
    conflict := none, arena := [⟨[1, 2], true, false, 0⟩],
    watches := watchesOf [(1, [⟨2, 2, 0⟩]), (2, [⟨1, 2, 0⟩])],
    simplifying := false, stats := ⟨0, 0, 0, 0⟩ }

/-- A value store for exercising the replacement search on the clause
`[1, 2, 3, 4, 5]`: literal `3` is false, everything else unassigned. -/
def cvals : Int → Int := valsOf [(3, -1)]

/-- The behaviour of the cached two-phase replacement search
(result `r = (k, v, newPos)`): either the first phase (from the cached
offset `pos` to the end) stops at a non-false literal, or every literal
there is false and the second phase (from index 2 up to `pos`) stops at
one, or both phases fail; in every case the cache is updated to the
position where the search stopped (`pos` itself on failure). -/
def twoPhaseSpec (vals : Int → Int) (lits : List Int) (size pos : Nat)
    (r : Nat × Int × Nat) : Prop :=
  (pos ≤ r.1 ∧ r.1 < size ∧ 0 ≤ r.2.1 ∧ r.2.1 = vals (lits.getD r.1 0) ∧
    (∀ n, pos ≤ n → n < r.1 → vals (lits.getD n 0) < 0) ∧ r.2.2 = r.1) ∨
  ((∀ n, pos ≤ n → n < size → vals (lits.getD n 0) < 0) ∧
    2 ≤ r.1 ∧ r.1 < pos ∧ 0 ≤ r.2.1 ∧ r.2.1 = vals (lits.getD r.1 0) ∧
    (∀ n, 2 ≤ n → n < r.1 → vals (lits.getD n 0) < 0) ∧ r.2.2 = r.1) ∨
  ((∀ n, 2 ≤ n → n < size → vals (lits.getD n 0) < 0) ∧
    r.2.1 < 0 ∧ r.1 = pos ∧ r.2.2 = pos)

/-! ### Frame and effect lemmas for `inlined_assign` -/

theorem vidx_eq_natAbs (lit : Int) : vidx lit = (lit.natAbs : Int) := by
  unfold vidx
  split <;> omega

theorem inlined_assign_arena (s : Internal) (lit : Int) (r : Option Nat) :
    (inlined_assign s lit r).arena = s.arena := by
  simp only [inlined_assign, learn_unit_clause]
  split <;> split <;> rfl

theorem inlined_assign_watches (s : Internal) (lit : Int) (r : Option Nat) :
    (inlined_assign s lit r).watches = s.watches := by
  simp only [inlined_assign, learn_unit_clause]
  split <;> split <;> rfl

theorem inlined_assign_conflict (s : Internal) (lit : Int) (r : Option Nat) :
    (inlined_assign s lit r).conflict = s.conflict := by
  simp only [inlined_assign, learn_unit_clause]
  split <;> split <;> rfl

theorem inlined_assign_propagated (s : Internal) (lit : Int) (r : Option Nat) :
    (inlined_assign s lit r).propagated = s.propagated := by
  simp only [inlined_assign, learn_unit_clause]
  split <;> split <;> rfl

theorem inlined_assign_vars (s : Internal) (lit : Int) (r : Option Nat) :
    (inlined_assign s lit r).vars = s.vars := by
  simp only [inlined_assign, learn_unit_clause]
  split <;> split <;> rfl

theorem inlined_assign_simplifying (s : Internal) (lit : Int) (r : Option Nat) :
    (inlined_assign s lit r).simplifying = s.simplifying := by
  simp only [inlined_assign, learn_unit_clause]
  split <;> split <;> rfl

theorem inlined_assign_level (s : Internal) (lit : Int) (r : Option Nat) :
    (inlined_assign s lit r).level = s.level := by
  simp only [inlined_assign, learn_unit_clause]
  split <;> split <;> rfl

theorem inlined_assign_trail (s : Internal) (lit : Int) (r : Option Nat) :
    (inlined_assign s lit r).trail = s.trail ++ [lit] := by
  simp only [inlined_assign, learn_unit_clause]
  split <;> split <;> rfl

theorem inlined_assign_vals (s : Internal) (lit : Int) (r : Option Nat) :
    (inlined_assign s lit r).vals =
      updF (updF s.vals (vidx lit) (sign lit)) (-(vidx lit)) (-(sign lit)) := by
  simp only [inlined_assign, learn_unit_clause]
  split <;> split <;> rfl

theorem assign_val_self (s : Internal) (lit : Int) (r : Option Nat) (h : lit ≠ 0) :
    (inlined_assign s lit r).vals lit = 1 := by
  rw [inlined_assign_vals, vidx_eq_natAbs]
  simp only [updF, sign]
  split_ifs <;> first | omega | rfl | (exfalso; omega)

theorem assign_val_negself (s : Internal) (lit : Int) (r : Option Nat) (h : lit ≠ 0) :
    (inlined_assign s lit r).vals (-lit) = -1 := by
  rw [inlined_assign_vals, vidx_eq_natAbs]
  simp only [updF, sign]
  split_ifs <;> first | omega | rfl | (exfalso; omega)

theorem assign_val_other (s : Internal) (lit : Int) (r : Option Nat) (x : Int)
    (h1 : x ≠ lit) (h2 : x ≠ -lit) :
    (inlined_assign s lit r).vals x = s.vals x := by
  rw [inlined_assign_vals, vidx_eq_natAbs]
  simp only [updF]
  split_ifs <;> first | rfl | (exfalso; omega)

theorem assign_symm (s : Internal) (lit : Int) (r : Option Nat) (h : lit ≠ 0)
    (hsym : ∀ l : Int, s.vals (-l) = - s.vals l) :
    ∀ l : Int, (inlined_assign s lit r).vals (-l) = - (inlined_assign s lit r).vals l := by
  intro l
  rw [inlined_assign_vals, vidx_eq_natAbs]
  simp only [updF]
  split_ifs <;> first | omega | exact hsym l | (exfalso; omega)

theorem assign_val_pos (s : Internal) (lit : Int) (r : Option Nat) (x : Int)
    (h : lit ≠ 0) (h0 : s.vals lit = 0)
    (hsym : ∀ l : Int, s.vals (-l) = - s.vals l)
    (hx : 0 < s.vals x) : 0 < (inlined_assign s lit r).vals x := by
  by_cases e1 : x = lit
  · subst e1; omega
  by_cases e2 : x = -lit
  · subst e2
    have := hsym lit
    omega
  rw [assign_val_other s lit r x e1 e2]
  exact hx

theorem assign_val_neg (s : Internal) (lit : Int) (r : Option Nat) (x : Int)
    (h : lit ≠ 0) (h0 : s.vals lit = 0)
    (hsym : ∀ l : Int, s.vals (-l) = - s.vals l)
    (hx : s.vals x < 0) : (inlined_assign s lit r).vals x < 0 := by
  by_cases e1 : x = lit
  · subst e1; omega
  by_cases e2 : x = -lit
  · subst e2
    have := hsym lit
    omega
  rw [assign_val_other s lit r x e1 e2]
  exact hx

theorem assign_val_zero (s : Internal) (lit : Int) (r : Option Nat) (x : Int)
    (h : lit ≠ 0) (hx : (inlined_assign s lit r).vals x = 0) : s.vals x = 0 := by
  by_cases e1 : x = lit
  · rw [e1] at hx ⊢
    rw [assign_val_self s lit r h] at hx
    omega
  by_cases e2 : x = -lit
  · rw [e2] at hx ⊢
    rw [assign_val_negself s lit r h] at hx
    omega
  rwa [assign_val_other s lit r x e1 e2] at hx

/-! ### Counting lemmas for the termination measure -/

theorem countP_le_of_imp {α : Type} (p q : α → Bool) :
    ∀ l : List α, (∀ x ∈ l, q x = true → p x = true) → l.countP q ≤ l.countP p := by
  intro l
  induction l with
  | nil => intro _; simp
  | cons a t ih =>
    intro h
    have ht := ih (fun x hx hq => h x (List.mem_cons_of_mem a hx) hq)
    simp only [List.countP_cons]
    by_cases hq : q a = true
    · have hp := h a (List.mem_cons_self a t) hq
      rw [if_pos hp, if_pos hq]
      omega
    · rw [if_neg hq]
      split <;> omega

theorem countP_succ_le {α : Type} (p q : α → Bool) (a : α) :
    ∀ l : List α, (∀ x ∈ l, q x = true → p x = true) → a ∈ l →
      p a = true → q a = false → l.countP q + 1 ≤ l.countP p := by
  intro l
  induction l with
  | nil => intro _ ha; cases ha
  | cons x t ih =>
    intro h ha hp hq
    simp only [List.countP_cons]
    rcases List.mem_cons.mp ha with rfl | ha'
    · have ht := countP_le_of_imp p q t (fun y hy hqy => h y (List.mem_cons_of_mem a hy) hqy)
      rw [if_pos hp, if_neg (by simp [hq])]
      omega
    · have ht := ih (fun y hy hqy => h y (List.mem_cons_of_mem x hy) hqy) ha' hp hq
      by_cases hqx : q x = true
      · have hpx := h x (List.mem_cons_self x t) hqx
        rw [if_pos hpx, if_pos hqx]
        omega
      · rw [if_neg hqx]
        split <;> omega

theorem assign_unassignedCount (s : Internal) (lit : Int) (r : Option Nat)
    (h : lit ≠ 0) (h0 : s.vals lit = 0)
    (hsym : ∀ l : Int, s.vals (-l) = - s.vals l)
    (hrange : lit.natAbs ≤ s.vars) :
    unassignedCount (inlined_assign s lit r) + 1 ≤ unassignedCount s := by
  unfold unassignedCount
  rw [inlined_assign_vars]
  have habs : ((lit.natAbs - 1 + 1 : Nat) : Int) = (lit.natAbs : Int) := by omega
  have hidx : ((lit.natAbs : Int) = lit ∧ 0 < lit) ∨ ((lit.natAbs : Int) = -lit ∧ lit < 0) := by
    omega
  apply countP_succ_le _ _ (lit.natAbs - 1)
  · intro i _ hq
    simp only [decide_eq_true_eq] at hq ⊢
    exact assign_val_zero s lit r _ h hq
  · have : lit.natAbs - 1 < s.vars := by omega
    exact List.mem_range.mpr this
  · simp only [decide_eq_true_eq, habs]
    rcases hidx with ⟨he, _⟩ | ⟨he, _⟩
    · rw [he]; exact h0
    · rw [he, hsym lit, h0]; rfl
  · simp only [habs]
    rcases hidx with ⟨he, _⟩ | ⟨he, _⟩
    · rw [he, assign_val_self s lit r h]; rfl
    · rw [he, assign_val_negself s lit r h]; rfl

/-! ### Frame lemmas for the small state operations -/

theorem setClause_get_self (s : Internal) (ci : Nat) (c c' : Clause)
    (h : s.arena[ci]? = some c) : (setClause s ci c').arena[ci]? = some c' := by
  have hlen : ci < s.arena.length := by
    by_contra hc
    rw [List.getElem?_eq_none (by omega)] at h
    cases h
  simp [setClause, List.getElem?_set, hlen]

theorem setClause_get_ne (s : Internal) (ci cj : Nat) (c' : Clause)
    (h : cj ≠ ci) : (setClause s ci c').arena[cj]? = s.arena[cj]? := by
  simp [setClause, List.getElem?_set_ne (fun hcc => h hcc.symm)]

theorem getClause_eq (s : Internal) (ci : Nat) (c : Clause)
    (h : s.arena[ci]? = some c) : getClause s ci = c := by
  simp [getClause, h]

theorem propagateLoop_of_conflict (fuel : Nat) (s : Internal) (c : Nat)
    (h : s.conflict = some c) : propagateLoop fuel s = s := by
  cases fuel <;> simp [propagateLoop, h]

theorem propagateLoop_of_done (fuel : Nat) (s : Internal)
    (h : ¬ s.propagated < s.trail.length) : propagateLoop fuel s = s := by
  cases fuel <;> simp [propagateLoop, h]

/-! ### Case equations for `scanWatches` -/

theorem scanWatches_nil (lit : Int) (s : Internal) (acc : List Watch) :
    scanWatches lit s [] acc = (s, acc) := rfl

theorem scanWatches_blitTrue (lit : Int) (s : Internal) (w : Watch) (rest acc : List Watch)
    (h : 0 < s.vals w.blit) :
    scanWatches lit s (w :: rest) acc = scanWatches lit s rest (acc ++ [w]) := by
  rw [scanWatches]
  simp only [if_pos h]

theorem scanWatches_binConflict (lit : Int) (s : Internal) (w : Watch) (rest acc : List Watch)
    (h1 : ¬ 0 < s.vals w.blit) (h2 : w.size = 2) (h3 : s.vals w.blit < 0) :
    scanWatches lit s (w :: rest) acc =
      scanWatches lit { s with conflict := some w.clause } rest (acc ++ [w]) := by
  rw [scanWatches]
  simp only [if_neg h1, if_pos h2, if_pos h3]

theorem scanWatches_binAssign (lit : Int) (s : Internal) (w : Watch) (rest acc : List Watch)
    (h1 : ¬ 0 < s.vals w.blit) (h2 : w.size = 2) (h3 : ¬ s.vals w.blit < 0) :
    scanWatches lit s (w :: rest) acc =
      scanWatches lit (inlined_assign s w.blit (some w.clause)) rest (acc ++ [w]) := by
  rw [scanWatches]
  simp only [if_neg h1, if_pos h2, if_neg h3]

theorem scanWatches_garbage (lit : Int) (s : Internal) (w : Watch) (rest acc : List Watch)
    (h1 : ¬ 0 < s.vals w.blit) (h2 : ¬ w.size = 2)
    (hg : (getClause s w.clause).garbage = true) :
    scanWatches lit s (w :: rest) acc = scanWatches lit s rest (acc ++ [w]) := by
  rw [scanWatches]
  simp only [if_neg h1, if_neg h2, if_pos hg]

theorem scanWatches_longSat (lit : Int) (s : Internal) (w : Watch) (rest acc : List Watch)
    (h1 : ¬ 0 < s.vals w.blit) (h2 : ¬ w.size = 2)
    (hg : ¬ (getClause s w.clause).garbage = true)
    (lits1 : List Int)
    (hl : lits1 = (if (getClause s w.clause).lits.getD 0 0 = lit
        then swap01 (getClause s w.clause).lits else (getClause s w.clause).lits))
    (hu : 0 < s.vals (lits1.getD 0 0)) :
    scanWatches lit s (w :: rest) acc =
      scanWatches lit
        (setClause s w.clause { getClause s w.clause with lits := lits1 }) rest
        (acc ++ [{ w with blit := lits1.getD 0 0 }]) := by
  subst hl
  rw [scanWatches]
  simp only [if_neg h1, if_neg h2, if_neg hg, if_pos hu]

theorem scanWatches_searchTrue (lit : Int) (s : Internal) (w : Watch) (rest acc : List Watch)
    (h1 : ¬ 0 < s.vals w.blit) (h2 : ¬ w.size = 2)
    (hg : ¬ (getClause s w.clause).garbage = true)
    (lits1 : List Int)
    (hl : lits1 = (if (getClause s w.clause).lits.getD 0 0 = lit
        then swap01 (getClause s w.clause).lits else (getClause s w.clause).lits))
    (hu : ¬ 0 < s.vals (lits1.getD 0 0))
    (r : Nat × Int × Nat)
    (hr : r = searchReplacement s.vals lits1 w.size (getClause s w.clause).pos
        (getClause s w.clause).havePos)
    (hv : 0 < r.2.1) :
    scanWatches lit s (w :: rest) acc =
      scanWatches lit
        (setClause s w.clause { getClause s w.clause with lits := lits1, pos := r.2.2 }) rest
        (acc ++ [{ w with blit := lits1.getD r.1 0 }]) := by
  subst hl
  subst hr
  rw [scanWatches]
  simp only [if_neg h1, if_neg h2, if_neg hg, if_neg hu, if_pos hv]

theorem scanWatches_rewatch (lit : Int) (s : Internal) (w : Watch) (rest acc : List Watch)
    (h1 : ¬ 0 < s.vals w.blit) (h2 : ¬ w.size = 2)
    (hg : ¬ (getClause s w.clause).garbage = true)
    (lits1 : List Int)
    (hl : lits1 = (if (getClause s w.clause).lits.getD 0 0 = lit
        then swap01 (getClause s w.clause).lits else (getClause s w.clause).lits))
    (hu : ¬ 0 < s.vals (lits1.getD 0 0))
    (r : Nat × Int × Nat)
    (hr : r = searchReplacement s.vals lits1 w.size (getClause s w.clause).pos
        (getClause s w.clause).havePos)
    (hv1 : ¬ 0 < r.2.1) (hv2 : r.2.1 = 0) :
    scanWatches lit s (w :: rest) acc =
      scanWatches lit
        (watch_literal
          (setClause
            (setClause s w.clause { getClause s w.clause with lits := lits1, pos := r.2.2 })
            w.clause
            { getClause s w.clause with lits := swapWatchLit lits1 r.1, pos := r.2.2 })
          ((swapWatchLit lits1 r.1).getD 1 0) lit w.clause w.size)
        rest acc := by
  subst hl
  subst hr
  rw [scanWatches]
  simp only [if_neg h1, if_neg h2, if_neg hg, if_neg hu, if_neg hv1, if_pos hv2]

theorem scanWatches_longUnit (lit : Int) (s : Internal) (w : Watch) (rest acc : List Watch)
    (h1 : ¬ 0 < s.vals w.blit) (h2 : ¬ w.size = 2)
    (hg : ¬ (getClause s w.clause).garbage = true)
    (lits1 : List Int)
    (hl : lits1 = (if (getClause s w.clause).lits.getD 0 0 = lit
        then swap01 (getClause s w.clause).lits else (getClause s w.clause).lits))
    (hu : ¬ 0 < s.vals (lits1.getD 0 0))
    (r : Nat × Int × Nat)
    (hr : r = searchReplacement s.vals lits1 w.size (getClause s w.clause).pos
        (getClause s w.clause).havePos)
    (hv1 : ¬ 0 < r.2.1) (hv2 : ¬ r.2.1 = 0) (hz : s.vals (lits1.getD 0 0) = 0) :
    scanWatches lit s (w :: rest) acc =
      scanWatches lit
        (inlined_assign
          (setClause s w.clause { getClause s w.clause with lits := lits1, pos := r.2.2 })
          (lits1.getD 0 0) (some w.clause))
        rest (acc ++ [w]) := by
  subst hl
  subst hr
  rw [scanWatches]
  simp only [if_neg h1, if_neg h2, if_neg hg, if_neg hu, if_neg hv1, if_neg hv2, if_pos hz]

theorem scanWatches_longConflict (lit : Int) (s : Internal) (w : Watch) (rest acc : List Watch)
    (h1 : ¬ 0 < s.vals w.blit) (h2 : ¬ w.size = 2)
    (hg : ¬ (getClause s w.clause).garbage = true)
    (lits1 : List Int)
    (hl : lits1 = (if (getClause s w.clause).lits.getD 0 0 = lit
        then swap01 (getClause s w.clause).lits else (getClause s w.clause).lits))
    (hu : ¬ 0 < s.vals (lits1.getD 0 0))
    (r : Nat × Int × Nat)
    (hr : r = searchReplacement s.vals lits1 w.size (getClause s w.clause).pos
        (getClause s w.clause).havePos)
    (hv1 : ¬ 0 < r.2.1) (hv2 : ¬ r.2.1 = 0) (hz : ¬ s.vals (lits1.getD 0 0) = 0) :
    scanWatches lit s (w :: rest) acc =
      ({ setClause s w.clause { getClause s w.clause with lits := lits1, pos := r.2.2 } with
          conflict := some w.clause }, acc ++ w :: rest) := by
  subst hl
  subst hr
  rw [scanWatches]
  simp only [if_neg h1, if_neg h2, if_neg hg, if_neg hu, if_neg hv1, if_neg hv2, if_neg hz]

/-! ### The frame relation preserved by a scan -/

/-- State components that a watch-list scan can only change in restricted
ways: the cursor, mode flags and level are untouched, the trail only
grows, and a set conflict is never cleared. -/
def frameRel (s s' : Internal) : Prop :=
  s'.propagated = s.propagated ∧ s'.vars = s.vars ∧ s'.simplifying = s.simplifying ∧
  s'.level = s.level ∧ (∃ t, s'.trail = s.trail ++ t) ∧
  (s.conflict ≠ none → s'.conflict ≠ none)

theorem frameRel_refl (s : Internal) : frameRel s s :=
  ⟨rfl, rfl, rfl, rfl, ⟨[], by simp⟩, fun h => h⟩

theorem frameRel_trans {s1 s2 s3 : Internal} (h1 : frameRel s1 s2) (h2 : frameRel s2 s3) :
    frameRel s1 s3 := by
  obtain ⟨a1, b1, c1, d1, ⟨t1, e1⟩, f1⟩ := h1
  obtain ⟨a2, b2, c2, d2, ⟨t2, e2⟩, f2⟩ := h2
  exact ⟨a2.trans a1, b2.trans b1, c2.trans c1, d2.trans d1,
    ⟨t1 ++ t2, by rw [e2, e1, List.append_assoc]⟩, fun h => f2 (f1 h)⟩

theorem frameRel_assign (s : Internal) (lit : Int) (r : Option Nat) :
    frameRel s (inlined_assign s lit r) :=
  ⟨inlined_assign_propagated s lit r, inlined_assign_vars s lit r,
    inlined_assign_simplifying s lit r, inlined_assign_level s lit r,
    ⟨[lit], inlined_assign_trail s lit r⟩,
    fun h => by rw [inlined_assign_conflict]; exact h⟩

theorem frameRel_setClause (s : Internal) (ci : Nat) (c : Clause) :
    frameRel s (setClause s ci c) :=
  ⟨rfl, rfl, rfl, rfl, ⟨[], by simp [setClause]⟩, fun h => h⟩

theorem frameRel_setConflict (s : Internal) (ci : Nat) :
    frameRel s { s with conflict := some ci } :=
  ⟨rfl, rfl, rfl, rfl, ⟨[], by simp⟩, fun _ => by simp⟩

theorem frameRel_watchLit (s : Internal) (l blit : Int) (ci : Nat) (size : Nat) :
    frameRel s (watch_literal s l blit ci size) :=
  ⟨rfl, rfl, rfl, rfl, ⟨[], by simp [watch_literal, withWatches]⟩, fun h => h⟩

theorem scan_frame (lit : Int) :
    ∀ (ws : List Watch) (s : Internal) (acc : List Watch),
      frameRel s (scanWatches lit s ws acc).1 := by
  intro ws
  induction ws with
  | nil =>
    intro s acc
    rw [scanWatches_nil]
    exact frameRel_refl s
  | cons w rest ih =>
    intro s acc
    by_cases h1 : 0 < s.vals w.blit
    · rw [scanWatches_blitTrue lit s w rest acc h1]
      exact ih s (acc ++ [w])
    by_cases h2 : w.size = 2
    · by_cases h3 : s.vals w.blit < 0
      · rw [scanWatches_binConflict lit s w rest acc h1 h2 h3]
        exact frameRel_trans (frameRel_setConflict s w.clause) (ih _ _)
      · rw [scanWatches_binAssign lit s w rest acc h1 h2 h3]
        exact frameRel_trans (frameRel_assign s w.blit (some w.clause)) (ih _ _)
    by_cases hg : (getClause s w.clause).garbage = true
    · rw [scanWatches_garbage lit s w rest acc h1 h2 hg]
      exact ih s (acc ++ [w])
    by_cases hu : 0 < s.vals ((if (getClause s w.clause).lits.getD 0 0 = lit
        then swap01 (getClause s w.clause).lits else (getClause s w.clause).lits).getD 0 0)
    · rw [scanWatches_longSat lit s w rest acc h1 h2 hg _ rfl hu]
      exact frameRel_trans (frameRel_setClause s w.clause _) (ih _ _)
    by_cases hv : 0 < (searchReplacement s.vals
        (if (getClause s w.clause).lits.getD 0 0 = lit
          then swap01 (getClause s w.clause).lits else (getClause s w.clause).lits)
        w.size (getClause s w.clause).pos (getClause s w.clause).havePos).2.1
    · rw [scanWatches_searchTrue lit s w rest acc h1 h2 hg _ rfl hu _ rfl hv]
      exact frameRel_trans (frameRel_setClause s w.clause _) (ih _ _)
    by_cases hv2 : (searchReplacement s.vals
        (if (getClause s w.clause).lits.getD 0 0 = lit
          then swap01 (getClause s w.clause).lits else (getClause s w.clause).lits)
        w.size (getClause s w.clause).pos (getClause s w.clause).havePos).2.1 = 0
    · rw [scanWatches_rewatch lit s w rest acc h1 h2 hg _ rfl hu _ rfl hv hv2]
      refine frameRel_trans ?_ (ih _ _)
      exact frameRel_trans (frameRel_setClause s w.clause _)
        (frameRel_trans (frameRel_setClause _ w.clause _) (frameRel_watchLit _ _ _ _ _))
    by_cases hz : s.vals ((if (getClause s w.clause).lits.getD 0 0 = lit
        then swap01 (getClause s w.clause).lits else (getClause s w.clause).lits).getD 0 0) = 0
    · rw [scanWatches_longUnit lit s w rest acc h1 h2 hg _ rfl hu _ rfl hv hv2 hz]
      exact frameRel_trans
        (frameRel_trans (frameRel_setClause s w.clause _) (frameRel_assign _ _ _)) (ih _ _)
    · rw [scanWatches_longConflict lit s w rest acc h1 h2 hg _ rfl hu _ rfl hv hv2 hz]
      exact frameRel_trans (frameRel_setClause s w.clause _)
        (frameRel_setConflict _ w.clause)

/-! ### Specification of the replacement search -/

theorem findNonFalse_spec (vals : Int → Int) (lits : List Int) :
    ∀ (d start stop : Nat), stop - start = d → start ≤ stop →
      start ≤ (findNonFalse vals lits start stop).1 ∧
      (findNonFalse vals lits start stop).1 ≤ stop ∧
      (∀ i, start ≤ i → i < (findNonFalse vals lits start stop).1 →
        vals (lits.getD i 0) < 0) ∧
      (0 ≤ (findNonFalse vals lits start stop).2 →
        (findNonFalse vals lits start stop).1 < stop ∧
        (findNonFalse vals lits start stop).2 =
          vals (lits.getD (findNonFalse vals lits start stop).1 0)) ∧
      ((findNonFalse vals lits start stop).2 < 0 →
        (findNonFalse vals lits start stop).1 = stop) := by
  intro d
  induction d with
  | zero =>
    intro start stop hd hle
    have : ¬ start < stop := by omega
    rw [findNonFalse]
    simp only [dif_neg this]
    refine ⟨le_refl _, hle, ?_, ?_, ?_⟩
    · intro i hi1 hi2; omega
    · intro hc; exfalso; omega
    · intro _; omega
  | succ d ih =>
    intro start stop hd hle
    by_cases hlt : start < stop
    · rw [findNonFalse]
      simp only [dif_pos hlt]
      by_cases hv : vals (lits.getD start 0) < 0
      · simp only [if_pos hv]
        obtain ⟨ha, hb, hc, hfound, hnf⟩ := ih (start + 1) stop (by omega) (by omega)
        refine ⟨by omega, hb, ?_, hfound, hnf⟩
        intro i hi1 hi2
        rcases Nat.eq_or_lt_of_le hi1 with rfl | hi3
        · exact hv
        · exact hc i (by omega) hi2
      · simp only [if_neg hv]
        refine ⟨le_refl _, by omega, ?_, ?_, ?_⟩
        · intro i hi1 hi2; omega
        · intro _; exact ⟨hlt, by trivial⟩
        · intro hcon; omega
    · rw [findNonFalse]
      simp only [dif_neg hlt]
      refine ⟨le_refl _, hle, ?_, ?_, ?_⟩
      · intro i hi1 hi2; omega
      · intro hc; exfalso; omega
      · intro _; omega

theorem findNonFalse_start_le (vals : Int → Int) (lits : List Int) (start stop : Nat)
    (h : start ≤ stop) : start ≤ (findNonFalse vals lits start stop).1 :=
  (findNonFalse_spec vals lits _ start stop rfl h).1

theorem findNonFalse_le_stop (vals : Int → Int) (lits : List Int) (start stop : Nat)
    (h : start ≤ stop) : (findNonFalse vals lits start stop).1 ≤ stop :=
  (findNonFalse_spec vals lits _ start stop rfl h).2.1

theorem findNonFalse_before (vals : Int → Int) (lits : List Int) (start stop : Nat)
    (h : start ≤ stop) :
    ∀ i, start ≤ i → i < (findNonFalse vals lits start stop).1 →
      vals (lits.getD i 0) < 0 :=
  (findNonFalse_spec vals lits _ start stop rfl h).2.2.1

theorem findNonFalse_found (vals : Int → Int) (lits : List Int) (start stop : Nat)
    (h : start ≤ stop) (hv : 0 ≤ (findNonFalse vals lits start stop).2) :
    (findNonFalse vals lits start stop).1 < stop ∧
    (findNonFalse vals lits start stop).2 =
      vals (lits.getD (findNonFalse vals lits start stop).1 0) :=
  (findNonFalse_spec vals lits _ start stop rfl h).2.2.2.1 hv

theorem findNonFalse_notFound (vals : Int → Int) (lits : List Int) (start stop : Nat)
    (h : start ≤ stop) (hv : (findNonFalse vals lits start stop).2 < 0) :
    (findNonFalse vals lits start stop).1 = stop :=
  (findNonFalse_spec vals lits _ start stop rfl h).2.2.2.2 hv

/-- Bounds on the stopping index and the updated cache of the two-phase
search: on entry `2 ≤ pos ≤ size` (for cached clauses), the stopping index
lies in `[2, size]` and so does the new cache value. -/
theorem searchReplacement_bounds (vals : Int → Int) (lits : List Int) (size pos : Nat)
    (havePos : Bool) (hsize : 2 ≤ size)
    (hpos : havePos = true → 2 ≤ pos ∧ pos ≤ size) :
    2 ≤ (searchReplacement vals lits size pos havePos).1 ∧
    (searchReplacement vals lits size pos havePos).1 ≤ size ∧
    (havePos = true →
      2 ≤ (searchReplacement vals lits size pos havePos).2.2 ∧
      (searchReplacement vals lits size pos havePos).2.2 ≤ size) ∧
    (havePos = false → (searchReplacement vals lits size pos havePos).2.2 = pos) := by
  unfold searchReplacement
  cases havePos with
  | false =>
    simp only [Bool.false_eq_true, if_false]
    have h1 := findNonFalse_start_le vals lits 2 size hsize
    have h2 := findNonFalse_le_stop vals lits 2 size hsize
    exact ⟨h1, h2, by simp, fun _ => by trivial⟩
  | true =>
    obtain ⟨hp2, hps⟩ := hpos rfl
    simp only [if_true]
    by_cases hv : (findNonFalse vals lits pos size).2 < 0
    · simp only [if_pos hv]
      have h1 := findNonFalse_start_le vals lits 2 pos hp2
      have h2 := findNonFalse_le_stop vals lits 2 pos hp2
      exact ⟨h1, by omega, fun _ => ⟨h1, by omega⟩, by simp⟩
    · simp only [if_neg hv]
      have h1 := findNonFalse_start_le vals lits pos size hps
      have h2 := findNonFalse_le_stop vals lits pos size hps
      have h3 := findNonFalse_found vals lits pos size hps (by omega)
      exact ⟨by omega, by omega, fun _ => ⟨by omega, by omega⟩, by simp⟩

/-- If the search fails (`v < 0`), every non-watched position of the
clause holds a false literal. -/
theorem searchReplacement_notFound (vals : Int → Int) (lits : List Int) (size pos : Nat)
    (havePos : Bool) (hsize : 2 ≤ size)
    (hpos : havePos = true → 2 ≤ pos ∧ pos ≤ size)
    (hv : (searchReplacement vals lits size pos havePos).2.1 < 0) :
    ∀ i, 2 ≤ i → i < size → vals (lits.getD i 0) < 0 := by
  unfold searchReplacement at hv
  cases havePos with
  | false =>
    simp only [Bool.false_eq_true, if_false] at hv
    exact fun i h2 hi => findNonFalse_before vals lits 2 size hsize i h2
      (by rw [findNonFalse_notFound vals lits 2 size hsize hv]; exact hi)
  | true =>
    obtain ⟨hp2, hps⟩ := hpos rfl
    simp only [if_true] at hv
    by_cases hv1 : (findNonFalse vals lits pos size).2 < 0
    · simp only [if_pos hv1] at hv
      have hstop1 := findNonFalse_notFound vals lits pos size hps hv1
      have hstop2 := findNonFalse_notFound vals lits 2 pos hp2 hv
      intro i h2 hi
      by_cases hcase : i < pos
      · exact findNonFalse_before vals lits 2 pos hp2 i h2 (by omega)
      · exact findNonFalse_before vals lits pos size hps i (by omega) (by omega)
    · simp only [if_neg hv1] at hv
      omega

/-- If the search succeeds (`v ≥ 0`), the stopping index is a non-watched
position holding the value found. -/
theorem searchReplacement_found (vals : Int → Int) (lits : List Int) (size pos : Nat)
    (havePos : Bool) (hsize : 2 ≤ size)
    (hpos : havePos = true → 2 ≤ pos ∧ pos ≤ size)
    (hv : 0 ≤ (searchReplacement vals lits size pos havePos).2.1) :
    2 ≤ (searchReplacement vals lits size pos havePos).1 ∧
    (searchReplacement vals lits size pos havePos).1 < size ∧
    (searchReplacement vals lits size pos havePos).2.1 =
      vals (lits.getD (searchReplacement vals lits size pos havePos).1 0) := by
  unfold searchReplacement at hv ⊢
  cases havePos with
  | false =>
    simp only [Bool.false_eq_true, if_false] at hv ⊢
    have h1 := findNonFalse_start_le vals lits 2 size hsize
    have h3 := findNonFalse_found vals lits 2 size hsize hv
    exact ⟨h1, h3.1, h3.2⟩
  | true =>
    obtain ⟨hp2, hps⟩ := hpos rfl
    simp only [if_true] at hv ⊢
    by_cases hv1 : (findNonFalse vals lits pos size).2 < 0
    · simp only [if_pos hv1] at hv ⊢
      have h1 := findNonFalse_start_le vals lits 2 pos hp2
      have h3 := findNonFalse_found vals lits 2 pos hp2 hv
      exact ⟨h1, by omega, h3.2⟩
    · simp only [if_neg hv1] at hv ⊢
      have h1 := findNonFalse_start_le vals lits pos size hps
      have h3 := findNonFalse_found vals lits pos size hps (by omega)
      exact ⟨by omega, h3.1, h3.2⟩

/-! ### List helpers for the literal swaps -/

theorem exists_cons_cons {l : List Int} (h : 2 ≤ l.length) :
    ∃ a b t, l = a :: b :: t := by
  match l with
  | [] => simp at h
  | [a] => simp at h
  | a :: b :: t => exact ⟨a, b, t, rfl⟩

theorem getD_mem {l : List Int} {n : Nat} (h : n < l.length) : l.getD n 0 ∈ l := by
  rw [List.getD_eq_getElem?_getD, List.getElem?_eq_getElem h]
  exact List.getElem_mem h

theorem getD_set_self (t : List Int) (m : Nat) (b : Int) (h : m < t.length) :
    (t.set m b).getD m 0 = b := by
  rw [List.getD_eq_getElem?_getD, List.getElem?_set_self (by simpa using h)]
  rfl

theorem getD_set_ne (t : List Int) (m n : Nat) (b : Int) (h : m ≠ n) :
    (t.set m b).getD n 0 = t.getD n 0 := by
  rw [List.getD_eq_getElem?_getD, List.getElem?_set_ne h, ← List.getD_eq_getElem?_getD]

theorem swap01_perm (l : List Int) : (swap01 l).Perm l := by
  match l with
  | [] => exact List.Perm.refl _
  | [a] => exact List.Perm.refl _
  | a :: b :: t => exact List.Perm.swap a b t

theorem set_getD_perm (b : Int) :
    ∀ (t : List Int) (m : Nat), m < t.length →
      (t.getD m 0 :: t.set m b).Perm (b :: t) := by
  intro t
  induction t with
  | nil => intro m h; simp at h
  | cons x t' ih =>
    intro m h
    cases m with
    | zero =>
      simp only [List.getD_cons_zero, List.set_cons_zero]
      exact List.Perm.swap b x t'
    | succ m =>
      simp only [List.getD_cons_succ, List.set_cons_succ]
      exact ((List.Perm.swap x (t'.getD m 0) (t'.set m b)).trans
        ((ih m (by simpa using h)).cons x)).trans (List.Perm.swap b x t')

theorem swapWatchLit_perm (l : List Int) (k : Nat) (hk : 2 ≤ k) (hlen : k < l.length) :
    (swapWatchLit l k).Perm l := by
  obtain ⟨a, b, t, rfl⟩ := exists_cons_cons (l := l) (by omega)
  unfold swapWatchLit
  apply List.Perm.cons a
  have hm : k - 2 < t.length := by simp at hlen; omega
  exact set_getD_perm b t (k - 2) hm

theorem swapWatchLit_length (l : List Int) (k : Nat) :
    (swapWatchLit l k).length = l.length := by
  match l with
  | [] => rfl
  | [a] => rfl
  | a :: b :: t => simp [swapWatchLit]

theorem swapWatchLit_getD_zero (a b : Int) (t : List Int) (k : Nat) :
    (swapWatchLit (a :: b :: t) k).getD 0 0 = a := rfl

theorem swapWatchLit_getD_one (a b : Int) (t : List Int) (k : Nat) (hk : 2 ≤ k) :
    (swapWatchLit (a :: b :: t) k).getD 1 0 = (a :: b :: t).getD k 0 := by
  obtain ⟨m, rfl⟩ : ∃ m, k = m + 2 := ⟨k - 2, by omega⟩
  unfold swapWatchLit
  simp only [List.getD_cons_succ, List.getD_cons_zero, Nat.add_sub_cancel]

theorem swapWatchLit_getD_k (a b : Int) (t : List Int) (k : Nat) (hk : 2 ≤ k)
    (hlen : k < (a :: b :: t).length) :
    (swapWatchLit (a :: b :: t) k).getD k 0 = b := by
  obtain ⟨m, rfl⟩ : ∃ m, k = m + 2 := ⟨k - 2, by omega⟩
  unfold swapWatchLit
  simp only [List.getD_cons_succ, Nat.add_sub_cancel]
  exact getD_set_self t m b (by simp at hlen; omega)

theorem swapWatchLit_getD_other (a b : Int) (t : List Int) (k n : Nat) (hk : 2 ≤ k)
    (h1 : n ≠ 1) (h2 : n ≠ k) :
    (swapWatchLit (a :: b :: t) k).getD n 0 = (a :: b :: t).getD n 0 := by
  unfold swapWatchLit
  cases n with
  | zero => rfl
  | succ n =>
    cases n with
    | zero => exact absurd rfl h1
    | succ n =>
      simp only [List.getD_cons_succ]
      exact getD_set_ne t (k - 2) n b (by omega)

theorem nodup_getD_ne {l : List Int} (hn : l.Nodup) {i k : Nat}
    (hi : i < l.length) (hk : k < l.length) (hik : i ≠ k) :
    l.getD i 0 ≠ l.getD k 0 := by
  rw [List.getD_eq_getElem l 0 hi, List.getD_eq_getElem l 0 hk]
  intro hc
  exact hik ((List.Nodup.getElem_inj_iff hn).mp hc)

theorem mem_exists_getD {l : List Int} {x : Int} (h : x ∈ l) :
    ∃ n, n < l.length ∧ l.getD n 0 = x := by
  obtain ⟨n, hn, he⟩ := List.mem_iff_getElem.mp h
  exact ⟨n, hn, by rw [List.getD_eq_getElem l 0 hn]; exact he⟩

theorem getD_zero_or (l : List Int) (n : Nat) :
    l.getD n 0 = 0 ∨ (n < l.length ∧ l.getD n 0 ∈ l) := by
  by_cases h : n < l.length
  · exact Or.inr ⟨h, getD_mem h⟩
  · left
    rw [List.getD_eq_getElem?_getD, List.getElem?_eq_none (by omega)]
    rfl

/-! ### Lemmas about `pendingLit`, `satisfiedC`, `allFalse` -/

theorem pendingLit_assign (s : Internal) (lit x : Int) (r : Option Nat)
    (hcur : s.propagated ≤ s.trail.length) (h : pendingLit s x) :
    pendingLit (inlined_assign s lit r) x := by
  unfold pendingLit at h ⊢
  rw [inlined_assign_trail, inlined_assign_propagated,
    List.drop_append_of_le_length hcur]
  exact List.mem_append.mpr (Or.inl h)

theorem pendingLit_assign_self (s : Internal) (lit : Int) (r : Option Nat)
    (hcur : s.propagated ≤ s.trail.length) :
    pendingLit (inlined_assign s lit r) lit := by
  unfold pendingLit
  rw [inlined_assign_trail, inlined_assign_propagated,
    List.drop_append_of_le_length hcur]
  exact List.mem_append.mpr (Or.inr (by simp))

theorem pendingLit_setClause (s : Internal) (ci : Nat) (c : Clause) (x : Int) :
    pendingLit (setClause s ci c) x ↔ pendingLit s x := Iff.rfl

theorem satisfiedC_perm (s : Internal) (c c' : Clause) (hp : c'.lits.Perm c.lits)
    (h : satisfiedC s c) : satisfiedC s c' := by
  obtain ⟨l, hl, hv⟩ := h
  exact ⟨l, hp.mem_iff.mpr hl, hv⟩

theorem satisfiedC_assign (s : Internal) (lit : Int) (r : Option Nat) (c : Clause)
    (hnz : lit ≠ 0) (h0 : s.vals lit = 0)
    (hsym : ∀ l : Int, s.vals (-l) = - s.vals l)
    (h : satisfiedC s c) : satisfiedC (inlined_assign s lit r) c := by
  obtain ⟨l, hl, hv⟩ := h
  exact ⟨l, hl, assign_val_pos s lit r l hnz h0 hsym hv⟩

theorem allFalse_perm (s : Internal) (c c' : Clause) (hp : c'.lits.Perm c.lits)
    (h : allFalse s c) : allFalse s c' := by
  intro l hl
  exact h l (hp.mem_iff.mp hl)

theorem allFalse_assign (s : Internal) (lit : Int) (r : Option Nat) (c : Clause)
    (hnz : lit ≠ 0) (h0 : s.vals lit = 0)
    (hsym : ∀ l : Int, s.vals (-l) = - s.vals l)
    (h : allFalse s c) : allFalse (inlined_assign s lit r) c := by
  intro l hl
  exact assign_val_neg s lit r l hnz h0 hsym (h l hl)

theorem unassignedCount_setClause (s : Internal) (ci : Nat) (c : Clause) :
    unassignedCount (setClause s ci c) = unassignedCount s := rfl

theorem unassignedCount_setConflict (s : Internal) (ci : Nat) :
    unassignedCount { s with conflict := some ci } = unassignedCount s := rfl

theorem unassignedCount_watchLit (s : Internal) (l blit : Int) (ci : Nat) (size : Nat) :
    unassignedCount (watch_literal s l blit ci size) = unassignedCount s := rfl

/-! ### Generic transformation lemmas for `InvW` -/

theorem InvW_congrW {L : Int} {esc : List Watch} {W1 W2 : Int → List Watch} {s : Internal}
    (hW : ∀ X, W2 X = W1 X) (H : InvW L esc W1 s) : InvW L esc W2 s := by
  refine ⟨H.symmV, H.trailOK, H.curBound, H.clauseOK, ?_, ?_, ?_, H.conflictOK, H.propInv⟩
  · intro X w hw
    exact H.watchOK X w (by rw [← hW X]; exact hw)
  · intro X ci
    rw [hW X]
    exact H.uniq X ci
  · intro ci c hci hg
    obtain ⟨h1, h2⟩ := H.watchedBoth ci c hci hg
    rw [hW _, hW _]
    exact ⟨h1, h2⟩

/-- Processing the head watch of the unread list: if the processing step
re-establishes the per-clause propagation invariant for the head's clause,
the escape list shrinks. -/
theorem InvW_resolve {L : Int} {rest : List Watch} {W : Int → List Watch} {s : Internal}
    (w : Watch) (H : InvW L (w :: rest) W s)
    (hres : s.conflict = none → ∀ c : Clause, s.arena[w.clause]? = some c →
      c.garbage = false →
      satisfiedC s c ∨ (∀ x : Int, watchedPos c x →
        0 ≤ s.vals x ∨ pendingLit s (-x) ∨
        (x = L ∧ ∃ w' ∈ rest, w'.clause = w.clause))) :
    InvW L rest W s := by
  refine ⟨H.symmV, H.trailOK, H.curBound, H.clauseOK, H.watchOK, H.uniq,
    H.watchedBoth, H.conflictOK, ?_⟩
  intro hc ci c hci hg
  by_cases hcw : ci = w.clause
  · subst hcw
    rcases hres hc c hci hg with h | h
    · exact Or.inl h
    · exact Or.inr h
  · rcases H.propInv hc ci c hci hg with h | h
    · exact Or.inl h
    · right
      intro x hx
      rcases h x hx with h1 | h1 | ⟨hxL, w', hw', hcl⟩
      · exact Or.inl h1
      · exact Or.inr (Or.inl h1)
      · rcases List.mem_cons.mp hw' with rfl | hw''
        · exact absurd hcl.symm hcw
        · exact Or.inr (Or.inr ⟨hxL, w', hw'', hcl⟩)

theorem countP_mid_congr {α : Type} (p : α → Bool) (j rest : List α) (w w' : α)
    (h : p w = p w') :
    (j ++ w' :: rest).countP p = (j ++ w :: rest).countP p := by
  simp only [List.countP_append, List.countP_cons, h]

/-- Assigning an unassigned, in-range literal preserves the invariant (for
any scan position). -/
theorem InvW_assign {L : Int} {esc : List Watch} {W : Int → List Watch} {s : Internal}
    (H : InvW L esc W s) (lit : Int) (r : Option Nat)
    (h0 : s.vals lit = 0) (hnz : lit ≠ 0) (hrange : lit.natAbs ≤ s.vars) :
    InvW L esc W (inlined_assign s lit r) := by
  have hsym := H.symmV
  refine ⟨assign_symm s lit r hnz hsym, ?_, ?_, ?_, ?_, H.uniq, ?_, ?_, ?_⟩
  · intro t ht
    rw [inlined_assign_trail] at ht
    rw [inlined_assign_vars]
    rcases List.mem_append.mp ht with h | h
    · obtain ⟨ha, hb, hc⟩ := H.trailOK t h
      exact ⟨ha, hb, assign_val_pos s lit r t hnz h0 hsym hc⟩
    · have ht2 : t = lit := by simpa using h
      rw [ht2, assign_val_self s lit r hnz]
      exact ⟨hnz, hrange, by omega⟩
  · rw [inlined_assign_trail, inlined_assign_propagated]
    have := H.curBound
    simp only [List.length_append, List.length_cons, List.length_nil]
    omega
  · simp only [inlined_assign_arena, inlined_assign_vars]
    exact H.clauseOK
  · simp only [inlined_assign_arena]
    exact H.watchOK
  · simp only [inlined_assign_arena]
    exact H.watchedBoth
  · simp only [inlined_assign_conflict, inlined_assign_arena]
    intro ci hci
    obtain ⟨c, hc, hall⟩ := H.conflictOK ci hci
    exact ⟨c, hc, allFalse_assign s lit r c hnz h0 hsym hall⟩
  · simp only [inlined_assign_conflict, inlined_assign_arena]
    intro hc ci c hci hg
    rcases H.propInv hc ci c hci hg with h | h
    · exact Or.inl (satisfiedC_assign s lit r c hnz h0 hsym h)
    · right
      intro x hx
      rcases h x hx with h1 | h1 | h1
      · by_cases hxn : x = -lit
        · subst hxn
          right; left
          have : -(-lit) = lit := by ring
          rw [this]
          exact pendingLit_assign_self s lit r H.curBound
        · left
          by_cases hxl : x = lit
          · rw [hxl, assign_val_self s lit r hnz]
            omega
          · rw [assign_val_other s lit r x hxl hxn]
            exact h1
      · exact Or.inr (Or.inl (pendingLit_assign s lit (-x) r H.curBound h1))
      · exact Or.inr (Or.inr h1)

/-- Recording a conflict whose clause is completely false preserves the
invariant; the scan position becomes irrelevant because the per-clause
propagation obligation is conditional on the absence of a conflict. -/
theorem InvW_setConflict {L : Int} {esc : List Watch} {W : Int → List Watch} {s : Internal}
    (L' : Int) (esc' : List Watch) (ci : Nat) (H : InvW L esc W s)
    (hall : ∃ c : Clause, s.arena[ci]? = some c ∧ allFalse s c) :
    InvW L' esc' W { s with conflict := some ci } := by
  refine ⟨H.symmV, H.trailOK, H.curBound, H.clauseOK, H.watchOK, H.uniq,
    H.watchedBoth, ?_, ?_⟩
  · intro cj hcj
    have : cj = ci := by
      simpa using hcj.symm
    subst this
    exact hall
  · intro hc
    simp at hc

/-- Rewriting a long clause in place with a permutation of its literals
that keeps the set of watched positions, together with an in-range cached
position, preserves the invariant. -/
theorem InvW_normalize {L : Int} {esc : List Watch} {W : Int → List Watch} {s : Internal}
    (H : InvW L esc W s) (ci : Nat) (c₀ : Clause) (hci : s.arena[ci]? = some c₀)
    (lits1 : List Int) (newPos : Nat)
    (hperm : lits1.Perm c₀.lits)
    (hw0 : (lits1.getD 0 0 = c₀.lits.getD 0 0 ∧ lits1.getD 1 0 = c₀.lits.getD 1 0)
         ∨ (lits1.getD 0 0 = c₀.lits.getD 1 0 ∧ lits1.getD 1 0 = c₀.lits.getD 0 0))
    (hpos : c₀.havePos = true → 2 ≤ newPos ∧ newPos ≤ lits1.length)
    (hnotbin : 2 < c₀.lits.length) :
    InvW L esc W (setClause s ci { c₀ with lits := lits1, pos := newPos }) := by
  have hlen : lits1.length = c₀.lits.length := hperm.length_eq
  have hwpos : ∀ x : Int,
      watchedPos { c₀ with lits := lits1, pos := newPos } x ↔ watchedPos c₀ x := by
    intro x
    unfold watchedPos
    rcases hw0 with ⟨e0, e1⟩ | ⟨e0, e1⟩ <;> rw [e0, e1] <;> constructor <;>
      (intro h; tauto)
  refine ⟨H.symmV, H.trailOK, H.curBound, ?_, ?_, H.uniq, ?_, ?_, ?_⟩
  · intro cj c hcj
    by_cases hji : cj = ci
    · subst hji
      rw [setClause_get_self s cj c₀ _ hci] at hcj
      obtain ⟨ha, hb, hc⟩ := H.clauseOK cj c₀ hci
      cases hcj
      refine ⟨?_, ?_, ?_⟩
      · intro l hl
        exact ha l (hperm.mem_iff.mp hl)
      · exact hb.perm hperm.symm
      · intro hp
        exact hpos hp
    · rw [setClause_get_ne s ci cj _ hji] at hcj
      exact H.clauseOK cj c hcj
  · intro X w hw
    obtain ⟨c, hc, hsz, h2, hblit, hbin, hlong⟩ := H.watchOK X w hw
    by_cases hji : w.clause = ci
    · rw [hji] at hc
      rw [hci] at hc
      cases hc
      refine ⟨{ c₀ with lits := lits1, pos := newPos }, ?_, ?_, h2, ?_, ?_, ?_⟩
      · rw [hji]
        exact setClause_get_self s ci c₀ _ hci
      · simp only [hlen]
        exact hsz
      · exact hperm.mem_iff.mpr hblit
      · intro hb2
        exfalso
        rw [hb2] at hsz
        omega
      · intro hlt
        rw [hwpos X]
        exact hlong hlt
    · rw [setClause_get_ne s ci w.clause _ hji]
      exact ⟨c, hc, hsz, h2, hblit, hbin, hlong⟩
  · intro cj c hcj hg
    by_cases hji : cj = ci
    · subst hji
      rw [setClause_get_self s cj c₀ _ hci] at hcj
      cases hcj
      obtain ⟨⟨w1, hw1, hc1⟩, ⟨w2, hw2, hc2⟩⟩ := H.watchedBoth cj c₀ hci hg
      rcases hw0 with ⟨e0, e1⟩ | ⟨e0, e1⟩
      · rw [show ({ c₀ with lits := lits1, pos := newPos } : Clause).lits = lits1 from rfl,
          e0, e1]
        exact ⟨⟨w1, hw1, hc1⟩, ⟨w2, hw2, hc2⟩⟩
      · rw [show ({ c₀ with lits := lits1, pos := newPos } : Clause).lits = lits1 from rfl,
          e0, e1]
        exact ⟨⟨w2, hw2, hc2⟩, ⟨w1, hw1, hc1⟩⟩
    · rw [setClause_get_ne s ci cj _ hji] at hcj
      exact H.watchedBoth cj c hcj hg
  · intro cj hcj
    obtain ⟨c, hc, hall⟩ := H.conflictOK cj hcj
    by_cases hji : cj = ci
    · subst hji
      rw [hci] at hc
      cases hc
      exact ⟨_, setClause_get_self s cj c₀ _ hci,
        allFalse_perm s c₀ _ hperm hall⟩
    · exact ⟨c, by rw [setClause_get_ne s ci cj _ hji]; exact hc, hall⟩
  · intro hc cj c hcj hg
    by_cases hji : cj = ci
    · subst hji
      rw [setClause_get_self s cj c₀ _ hci] at hcj
      cases hcj
      rcases H.propInv hc cj c₀ hci hg with h | h
      · exact Or.inl (satisfiedC_perm s c₀ _ hperm h)
      · right
        intro x hx
        exact h x ((hwpos x).mp hx)
    · rw [setClause_get_ne s ci cj _ hji] at hcj
      rcases H.propInv hc cj c hcj hg with h | h
      · exact Or.inl h
      · exact Or.inr (h ·)

/-- Replacing the blocking literal of the watch being processed by another
literal of its (long) clause preserves the invariant. -/
theorem InvW_chblit {L : Int} {rest j : List Watch} {s : Internal} (w : Watch) (d : Int)
    (H : InvW L (w :: rest) (updF s.watches L (j ++ w :: rest)) s)
    (hnb : ¬ w.size = 2)
    (hd : ∀ c : Clause, s.arena[w.clause]? = some c → d ∈ c.lits) :
    InvW L ({ w with blit := d } :: rest)
      (updF s.watches L (j ++ { w with blit := d } :: rest)) s := by
  have hmemW : ∀ {X : Int} {w' : Watch},
      w' ∈ updF s.watches L (j ++ { w with blit := d } :: rest) X →
      w' ∈ updF s.watches L (j ++ w :: rest) X ∨ (X = L ∧ w' = { w with blit := d }) := by
    intro X w' hw'
    by_cases hXL : X = L
    · rw [updF_apply, if_pos hXL] at hw'
      rcases List.mem_append.mp hw' with h | h
      · exact Or.inl (by rw [updF_apply, if_pos hXL]; exact List.mem_append.mpr (Or.inl h))
      · rcases List.mem_cons.mp h with rfl | h2
        · exact Or.inr ⟨hXL, rfl⟩
        · exact Or.inl (by
            rw [updF_apply, if_pos hXL]
            exact List.mem_append.mpr (Or.inr (List.mem_cons.mpr (Or.inr h2))))
    · rw [updF_ne _ _ hXL] at hw'
      exact Or.inl (by rw [updF_ne _ _ hXL]; exact hw')
  have hwin : w ∈ updF s.watches L (j ++ w :: rest) L := by
    rw [updF_self]
    exact List.mem_append.mpr (Or.inr (List.mem_cons_self w rest))
  refine ⟨H.symmV, H.trailOK, H.curBound, H.clauseOK, ?_, ?_, ?_, H.conflictOK, ?_⟩
  · intro X w' hw'
    rcases hmemW hw' with h | ⟨hXL, rfl⟩
    · exact H.watchOK X w' h
    · obtain ⟨c, hc, hsz, h2, _hblit, _hbin, hlong⟩ := H.watchOK L w hwin
      subst hXL
      exact ⟨c, hc, hsz, h2, hd c hc, fun hb2 => absurd hb2 hnb, hlong⟩
  · intro X ci
    rw [updF_apply]
    by_cases hXL : X = L
    · rw [if_pos hXL,
        countP_mid_congr (fun w => w.clause == ci) j rest w { w with blit := d } rfl]
      have h2 := H.uniq X ci
      rw [updF_apply, if_pos hXL] at h2
      exact h2
    · rw [if_neg hXL]
      have h2 := H.uniq X ci
      rw [updF_apply, if_neg hXL] at h2
      exact h2
  · intro ci c hci hg
    obtain ⟨⟨w1, hw1, hc1⟩, ⟨w2, hw2, hc2⟩⟩ := H.watchedBoth ci c hci hg
    constructor
    · by_cases hXL : c.lits.getD 0 0 = L
      · rw [hXL] at hw1 ⊢
        rw [updF_self] at hw1 ⊢
        rcases List.mem_append.mp hw1 with h | h
        · exact ⟨w1, List.mem_append.mpr (Or.inl h), hc1⟩
        · rcases List.mem_cons.mp h with rfl | h2
          · exact ⟨{ w1 with blit := d }, List.mem_append.mpr (Or.inr (by simp)), hc1⟩
          · exact ⟨w1, List.mem_append.mpr (Or.inr (by simp [h2])), hc1⟩
      · rw [updF_ne _ _ hXL] at hw1
        exact ⟨w1, by rw [updF_ne _ _ hXL]; exact hw1, hc1⟩
    · by_cases hXL : c.lits.getD 1 0 = L
      · rw [hXL] at hw2 ⊢
        rw [updF_self] at hw2 ⊢
        rcases List.mem_append.mp hw2 with h | h
        · exact ⟨w2, List.mem_append.mpr (Or.inl h), hc2⟩
        · rcases List.mem_cons.mp h with rfl | h2
          · exact ⟨{ w2 with blit := d }, List.mem_append.mpr (Or.inr (by simp)), hc2⟩
          · exact ⟨w2, List.mem_append.mpr (Or.inr (by simp [h2])), hc2⟩
      · rw [updF_ne _ _ hXL] at hw2
        exact ⟨w2, by rw [updF_ne _ _ hXL]; exact hw2, hc2⟩
  · intro hc ci c hci hg
    rcases H.propInv hc ci c hci hg with h | h
    · exact Or.inl h
    · right
      intro x hx
      rcases h x hx with h1 | h1 | ⟨hxL, w', hw', hcl⟩
      · exact Or.inl h1
      · exact Or.inr (Or.inl h1)
      · rcases List.mem_cons.mp hw' with rfl | h2
        · exact Or.inr (Or.inr ⟨hxL, { w' with blit := d }, by simp, hcl⟩)
        · exact Or.inr (Or.inr ⟨hxL, w', List.mem_cons.mpr (Or.inr h2), hcl⟩)

theorem getElem?_some_lt {α : Type} {l : List α} {n : Nat} {x : α}
    (h : l[n]? = some x) : n < l.length := by
  by_contra hc
  rw [List.getElem?_eq_none (by omega)] at h
  cases h

theorem w_mem_scan (L : Int) (j rest : List Watch) (s : Internal) (w : Watch) :
    w ∈ updF s.watches L (j ++ w :: rest) L := by
  rw [updF_self]
  exact List.mem_append.mpr (Or.inr (List.mem_cons_self w rest))

/-- By uniqueness, the watch being processed is the only watch for its
clause in the scanned list. -/
theorem uniq_no_other {L : Int} {j rest : List Watch} {s : Internal} (w : Watch)
    (H : InvW L (w :: rest) (updF s.watches L (j ++ w :: rest)) s) :
    ∀ w' ∈ j ++ rest, w'.clause ≠ w.clause := by
  have h := H.uniq L w.clause
  rw [updF_self] at h
  have hsplit : List.countP (fun w' : Watch => w'.clause == w.clause) (j ++ w :: rest) =
      List.countP (fun w' : Watch => w'.clause == w.clause) (j ++ rest) + 1 := by
    simp [List.countP_append, List.countP_cons]
    omega
  have key : List.countP (fun w' : Watch => w'.clause == w.clause) (j ++ rest) = 0 := by
    omega
  intro w' hw' hc
  have := List.countP_eq_zero.mp key w' hw'
  simp [hc] at this

/-- Facts available when a long (non-binary) watch is processed: the
normalized literal order `lits1` puts the false literal `L` at position 1
and keeps the set of watched positions. -/
theorem long_setup {L : Int} {rest j : List Watch} {s : Internal} {w : Watch}
    (H : InvW L (w :: rest) (updF s.watches L (j ++ w :: rest)) s)
    (hnb : ¬ w.size = 2) {lits1 : List Int}
    (hl : lits1 = if (getClause s w.clause).lits.getD 0 0 = L then
        swap01 (getClause s w.clause).lits else (getClause s w.clause).lits) :
    ∃ c₀ : Clause, s.arena[w.clause]? = some c₀ ∧ getClause s w.clause = c₀ ∧
      2 < c₀.lits.length ∧ w.size = c₀.lits.length ∧
      lits1.Perm c₀.lits ∧ lits1.length = c₀.lits.length ∧
      ((lits1.getD 0 0 = c₀.lits.getD 0 0 ∧ lits1.getD 1 0 = c₀.lits.getD 1 0) ∨
       (lits1.getD 0 0 = c₀.lits.getD 1 0 ∧ lits1.getD 1 0 = c₀.lits.getD 0 0)) ∧
      lits1.getD 1 0 = L ∧ lits1.Nodup ∧
      (∀ l ∈ lits1, l ≠ 0 ∧ l.natAbs ≤ s.vars) ∧
      (c₀.havePos = true → 2 ≤ c₀.pos ∧ c₀.pos ≤ lits1.length) := by
  obtain ⟨c₀, hci, hsz, h2, hblit, hbin, hlong⟩ :=
    H.watchOK L w (w_mem_scan L j rest s w)
  have hget : getClause s w.clause = c₀ := getClause_eq s w.clause c₀ hci
  rw [hget] at hl
  have h3 : 2 < c₀.lits.length := by
    rw [← hsz]
    omega
  obtain ⟨hrange₀, hnd₀, hpos₀⟩ := H.clauseOK w.clause c₀ hci
  have hwp : watchedPos c₀ L := hlong (by omega)
  obtain ⟨a, b, t, hab⟩ := exists_cons_cons (l := c₀.lits) (by omega)
  have hperm : lits1.Perm c₀.lits := by
    rw [hl]
    split
    · exact swap01_perm c₀.lits
    · exact List.Perm.refl _
  have hlen : lits1.length = c₀.lits.length := hperm.length_eq
  refine ⟨c₀, hci, hget, h3, hsz, hperm, hlen, ?_, ?_, hperm.symm.nodup hnd₀,
    fun l hli => hrange₀ l (hperm.mem_iff.mp hli), fun hp => by
      obtain ⟨hp1, hp2⟩ := hpos₀ hp
      exact ⟨hp1, by omega⟩⟩
  · rw [hl]
    split
    · right
      rw [hab]
      simp [swap01]
    · left
      exact ⟨rfl, rfl⟩
  · rw [hl]
    split
    · rename_i hcnd
      rw [hab] at hcnd ⊢
      simp only [List.getD_cons_zero] at hcnd
      simp [swap01, hcnd]
    · rename_i hcnd
      rcases hwp with h | h
      · exact absurd h.symm hcnd
      · exact h.symm

/-- The watch-relocation step: the unassigned replacement literal is
swapped into the watched slot, the watch is dropped from the current list
and pushed onto the replacement literal's list. -/
theorem InvW_rewatch {L : Int} {rest j : List Watch} {s : Internal} {w : Watch}
    {c₀ : Clause} {lits1 : List Int} {k newPos : Nat}
    (H : InvW L (w :: rest) (updF s.watches L (j ++ w :: rest)) s)
    (hci : s.arena[w.clause]? = some c₀)
    (hvL : s.vals L < 0)
    (hnotbin : 2 < c₀.lits.length)
    (hsz : w.size = c₀.lits.length)
    (hperm : lits1.Perm c₀.lits)
    (hw0 : (lits1.getD 0 0 = c₀.lits.getD 0 0 ∧ lits1.getD 1 0 = c₀.lits.getD 1 0) ∨
           (lits1.getD 0 0 = c₀.lits.getD 1 0 ∧ lits1.getD 1 0 = c₀.lits.getD 0 0))
    (hL1 : lits1.getD 1 0 = L)
    (hnd1 : lits1.Nodup)
    (hk2 : 2 ≤ k) (hklen : k < lits1.length)
    (hpos : c₀.havePos = true → 2 ≤ newPos ∧ newPos ≤ lits1.length)
    (hvk : s.vals (lits1.getD k 0) = 0)
    (hu : ¬ 0 < s.vals (lits1.getD 0 0)) :
    InvW L rest
      (updF (watch_literal
          (setClause (setClause s w.clause { c₀ with lits := lits1, pos := newPos })
            w.clause { c₀ with lits := swapWatchLit lits1 k, pos := newPos })
          ((swapWatchLit lits1 k).getD 1 0) L w.clause w.size).watches
        L (j ++ rest))
      (watch_literal
          (setClause (setClause s w.clause { c₀ with lits := lits1, pos := newPos })
            w.clause { c₀ with lits := swapWatchLit lits1 k, pos := newPos })
          ((swapWatchLit lits1 k).getD 1 0) L w.clause w.size) := by
  obtain ⟨a, bb, t, rfl⟩ :=
    exists_cons_cons (l := lits1) (by omega)
  have hbb : L = bb := by
    have := hL1
    simp only [List.getD_cons_succ, List.getD_cons_zero] at this
    exact this.symm
  subst hbb
  -- basic facts about the replacement literal and the swapped clause
  have hnl1 : (swapWatchLit (a :: L :: t) k).getD 1 0 = (a :: L :: t).getD k 0 :=
    swapWatchLit_getD_one a L t k hk2
  rw [hnl1]
  obtain ⟨nl, hnl⟩ : ∃ x, (a :: L :: t).getD k 0 = x := ⟨_, rfl⟩
  rw [hnl]
  rw [hnl] at hvk
  obtain ⟨lits2, hlits2⟩ : ∃ x, swapWatchLit (a :: L :: t) k = x := ⟨_, rfl⟩
  rw [hlits2]
  have hL2perm : lits2.Perm (a :: L :: t) := by
    rw [← hlits2]
    exact swapWatchLit_perm _ k hk2 hklen
  have hpermc : lits2.Perm c₀.lits := hL2perm.trans hperm
  have hlen2 : lits2.length = (a :: L :: t).length := hL2perm.length_eq
  have hclen : (a :: L :: t).length = c₀.lits.length := hperm.length_eq
  have hlg0 : lits2.getD 0 0 = a := by
    rw [← hlits2]
    exact swapWatchLit_getD_zero a L t k
  have hlg1 : lits2.getD 1 0 = nl := by
    rw [← hlits2, hnl1]
    exact hnl
  have hlgk : lits2.getD k 0 = L := by
    rw [← hlits2]
    exact swapWatchLit_getD_k a L t k hk2 hklen
  have hnd2 : lits2.Nodup := hL2perm.symm.nodup hnd1
  have hmem_nl : nl ∈ (a :: L :: t) := by
    rw [← hnl]
    exact getD_mem hklen
  have hnlL : nl ≠ L := by
    intro hc
    rw [hc] at hvk
    omega
  have hnla : nl ≠ a := by
    have h2 := nodup_getD_ne hnd1 (i := k) (k := 0) (by simpa using hklen) (by simp)
      (by omega)
    rw [hnl] at h2
    simpa using h2
  have haL : a ≠ L := by
    have h2 := nodup_getD_ne hnd1 (i := 0) (k := 1) (by simp) (by simp) (by omega)
    simpa using h2
  have hciLt : w.clause < s.arena.length := getElem?_some_lt hci
  have hU := uniq_no_other w H
  -- the two watched positions of the original clause are `a` and `L`
  have hwpc : ∀ x : Int, watchedPos c₀ x ↔ (x = a ∨ x = L) := by
    intro x
    unfold watchedPos
    rcases hw0 with ⟨e0, e1⟩ | ⟨e0, e1⟩ <;>
      simp only [List.getD_cons_zero, List.getD_cons_succ] at e0 e1 <;>
      rw [← e0, ← e1] <;> tauto
  -- no watch of this clause sits on the replacement literal's list
  have hnl_clean : ∀ w' ∈ s.watches nl, w'.clause ≠ w.clause := by
    intro w' hw' hc
    have hmem : w' ∈ updF s.watches L (j ++ w :: rest) nl := by
      rw [updF_ne _ _ hnlL]
      exact hw'
    obtain ⟨c', hc', hsz', h2', _, _, hlong'⟩ := H.watchOK nl w' hmem
    rw [hc] at hc'
    rw [hci] at hc'
    cases hc'
    have := (hwpc nl).mp (hlong' (by omega))
    rcases this with h | h
    · exact hnla h
    · exact hnlL h
  -- reading the new watch structure
  have hWread : ∀ X : Int,
      updF (watch_literal
          (setClause (setClause s w.clause { c₀ with lits := a :: L :: t, pos := newPos })
            w.clause { c₀ with lits := lits2, pos := newPos })
          nl L w.clause w.size).watches L (j ++ rest) X =
      if X = L then j ++ rest
      else if X = nl then s.watches nl ++ [⟨L, w.size, w.clause⟩]
      else s.watches X := by
    intro X
    rfl
  have hArena :
      (watch_literal
          (setClause (setClause s w.clause { c₀ with lits := a :: L :: t, pos := newPos })
            w.clause { c₀ with lits := lits2, pos := newPos })
          nl L w.clause w.size).arena =
      s.arena.set w.clause { c₀ with lits := lits2, pos := newPos } := by
    show (s.arena.set w.clause _).set w.clause _ = _
    rw [List.set_set]
  have hA1 : (watch_literal
          (setClause (setClause s w.clause { c₀ with lits := a :: L :: t, pos := newPos })
            w.clause { c₀ with lits := lits2, pos := newPos })
          nl L w.clause w.size).arena[w.clause]? =
        some { c₀ with lits := lits2, pos := newPos } := by
    rw [hArena]
    exact List.getElem?_set_self hciLt
  have hA2 : ∀ cj : Nat, cj ≠ w.clause →
      (watch_literal
          (setClause (setClause s w.clause { c₀ with lits := a :: L :: t, pos := newPos })
            w.clause { c₀ with lits := lits2, pos := newPos })
          nl L w.clause w.size).arena[cj]? = s.arena[cj]? := by
    intro cj hcj
    rw [hArena]
    exact List.getElem?_set_ne (fun h => hcj h.symm)
  refine ⟨H.symmV, H.trailOK, H.curBound, ?_, ?_, ?_, ?_, ?_, ?_⟩
  -- clauseOK
  · intro cj c hcj
    by_cases hji : cj = w.clause
    · subst hji
      rw [hA1] at hcj
      cases hcj
      obtain ⟨hrange₀, hnd₀, hposc⟩ := H.clauseOK w.clause c₀ hci
      refine ⟨fun l hli => hrange₀ l (hpermc.mem_iff.mp hli), hpermc.symm.nodup hnd₀, ?_⟩
      intro hp
      obtain ⟨h1, h2⟩ := hpos hp
      show 2 ≤ newPos ∧ newPos ≤ lits2.length
      exact ⟨h1, by omega⟩
    · rw [hA2 cj hji] at hcj
      exact H.clauseOK cj c hcj
  -- watchOK
  · intro X w' hw'
    rw [hWread X] at hw'
    by_cases hXL : X = L
    · rw [if_pos hXL] at hw'
      have hmem : w' ∈ updF s.watches L (j ++ w :: rest) X := by
        rw [hXL, updF_self]
        rcases List.mem_append.mp hw' with h | h
        · exact List.mem_append.mpr (Or.inl h)
        · exact List.mem_append.mpr (Or.inr (List.mem_cons_of_mem w h))
      obtain ⟨c', hc', hsz', h2', hblit', hbin', hlong'⟩ := H.watchOK X w' hmem
      have hne : w'.clause ≠ w.clause := hU w' hw'
      rw [hA2 w'.clause hne]
      exact ⟨c', hc', hsz', h2', hblit', hbin', hlong'⟩
    · rw [if_neg hXL] at hw'
      by_cases hXnl : X = nl
      · rw [if_pos hXnl] at hw'
        rcases List.mem_append.mp hw' with h | h
        · have hne : w'.clause ≠ w.clause := hnl_clean w' h
          have hmem : w' ∈ updF s.watches L (j ++ w :: rest) X := by
            rw [updF_ne _ _ hXL, hXnl]
            exact h
          obtain ⟨c', hc', hsz', h2', hblit', hbin', hlong'⟩ := H.watchOK X w' hmem
          rw [hA2 w'.clause hne]
          exact ⟨c', hc', hsz', h2', hblit', hbin', hlong'⟩
        · have hw'' : w' = ⟨L, w.size, w.clause⟩ := by simpa using h
          subst hw''
          refine ⟨{ c₀ with lits := lits2, pos := newPos }, hA1, ?_, ?_, ?_, ?_, ?_⟩
          · show w.size = lits2.length
            omega
          · show 2 ≤ w.size
            omega
          · show L ∈ lits2
            rw [← hlgk]
            exact getD_mem (by omega)
          · intro hb2
            have hb2' : w.size = 2 := hb2
            exfalso
            omega
          · intro _
            right
            show X = lits2.getD 1 0
            rw [hXnl, ← hlg1]
      · rw [if_neg hXnl] at hw'
        have hmem : w' ∈ updF s.watches L (j ++ w :: rest) X := by
          rw [updF_ne _ _ hXL]
          exact hw'
        obtain ⟨c', hc', hsz', h2', hblit', hbin', hlong'⟩ := H.watchOK X w' hmem
        by_cases hne : w'.clause = w.clause
        · rw [hne] at hc'
          rw [hci] at hc'
          cases hc'
          rw [hne, hA1]
          refine ⟨{ c₀ with lits := lits2, pos := newPos }, rfl, ?_, h2', ?_, ?_, ?_⟩
          · show w'.size = lits2.length
            omega
          · exact hpermc.mem_iff.mpr hblit'
          · intro hb2
            exfalso
            rw [hb2] at hsz'
            omega
          · intro hlt
            have := (hwpc X).mp (hlong' hlt)
            rcases this with h | h
            · left
              rw [h, ← hlg0]
            · exact absurd h hXL
        · rw [hA2 w'.clause hne]
          exact ⟨c', hc', hsz', h2', hblit', hbin', hlong'⟩
  -- uniq
  · intro X ci
    rw [hWread X]
    by_cases hXL : X = L
    · rw [if_pos hXL]
      have h := H.uniq L ci
      rw [updF_self, List.countP_append, List.countP_cons] at h
      rw [List.countP_append]
      split at h <;> omega
    · rw [if_neg hXL]
      by_cases hXnl : X = nl
      · rw [if_pos hXnl]
        have h := H.uniq nl ci
        rw [updF_ne _ _ hnlL] at h
        rw [List.countP_append, List.countP_cons, List.countP_nil]
        by_cases hcic : ci = w.clause
        · have hz : List.countP (fun w' : Watch => w'.clause == ci) (s.watches nl) = 0 := by
            rw [List.countP_eq_zero]
            intro w' hw'
            simp only [beq_iff_eq]
            rw [hcic]
            exact hnl_clean w' hw'
          rw [hz]
          split <;> omega
        · have : ((⟨L, w.size, w.clause⟩ : Watch).clause == ci) = false := by
            simp [hcic]
            exact fun hc => hcic hc.symm
          rw [this]
          simpa using h
      · rw [if_neg hXnl]
        have h := H.uniq X ci
        rw [updF_ne _ _ hXL] at h
        exact h
  -- watchedBoth
  · intro cj c hcj hg
    by_cases hji : cj = w.clause
    · subst hji
      rw [hA1] at hcj
      cases hcj
      constructor
      · -- a witness on the list of the other watched literal `a`
        obtain ⟨⟨w1, hw1, hc1⟩, ⟨w2, hw2, hc2⟩⟩ := H.watchedBoth w.clause c₀ hci (by exact hg)
        rw [show ({ c₀ with lits := lits2, pos := newPos } : Clause).lits = lits2 from rfl,
          hlg0]
        rcases hw0 with ⟨e0, e1⟩ | ⟨e0, e1⟩
        · -- c₀.lits.getD 0 = a
          simp only [List.getD_cons_zero, List.getD_cons_succ] at e0 e1
          refine ⟨w1, ?_, hc1⟩
          rw [hWread a, if_neg (fun h => haL h), if_neg (fun h => hnla h.symm)]
          rw [← e0] at hw1
          rw [updF_ne _ _ haL] at hw1
          exact hw1
        · -- c₀.lits.getD 1 = a
          simp only [List.getD_cons_zero, List.getD_cons_succ] at e0 e1
          refine ⟨w2, ?_, hc2⟩
          rw [hWread a, if_neg (fun h => haL h), if_neg (fun h => hnla h.symm)]
          rw [← e0] at hw2
          rw [updF_ne _ _ haL] at hw2
          exact hw2
      · refine ⟨⟨L, w.size, w.clause⟩, ?_, rfl⟩
        rw [show ({ c₀ with lits := lits2, pos := newPos } : Clause).lits = lits2 from rfl,
          hlg1]
        rw [hWread nl, if_neg hnlL, if_pos rfl]
        exact List.mem_append.mpr (Or.inr (by simp))
    · rw [hA2 cj hji] at hcj
      obtain ⟨⟨w1, hw1, hc1⟩, ⟨w2, hw2, hc2⟩⟩ := H.watchedBoth cj c hcj hg
      constructor
      · refine ⟨w1, ?_, hc1⟩
        rw [hWread (c.lits.getD 0 0)]
        by_cases hXL : c.lits.getD 0 0 = L
        · rw [if_pos hXL]
          rw [hXL, updF_self] at hw1
          rcases List.mem_append.mp hw1 with h | h
          · exact List.mem_append.mpr (Or.inl h)
          · rcases List.mem_cons.mp h with rfl | h2
            · exact absurd hc1.symm hji
            · exact List.mem_append.mpr (Or.inr h2)
        · rw [if_neg hXL]
          rw [updF_ne _ _ hXL] at hw1
          by_cases hXnl : c.lits.getD 0 0 = nl
          · rw [if_pos hXnl]
            rw [hXnl] at hw1
            exact List.mem_append.mpr (Or.inl hw1)
          · rw [if_neg hXnl]
            exact hw1
      · refine ⟨w2, ?_, hc2⟩
        rw [hWread (c.lits.getD 1 0)]
        by_cases hXL : c.lits.getD 1 0 = L
        · rw [if_pos hXL]
          rw [hXL, updF_self] at hw2
          rcases List.mem_append.mp hw2 with h | h
          · exact List.mem_append.mpr (Or.inl h)
          · rcases List.mem_cons.mp h with rfl | h2
            · exact absurd hc2.symm hji
            · exact List.mem_append.mpr (Or.inr h2)
        · rw [if_neg hXL]
          rw [updF_ne _ _ hXL] at hw2
          by_cases hXnl : c.lits.getD 1 0 = nl
          · rw [if_pos hXnl]
            rw [hXnl] at hw2
            exact List.mem_append.mpr (Or.inl hw2)
          · rw [if_neg hXnl]
            exact hw2
  -- conflictOK
  · intro cj hcj
    obtain ⟨c, hc, hall⟩ := H.conflictOK cj hcj
    by_cases hji : cj = w.clause
    · subst hji
      rw [hci] at hc
      cases hc
      exact ⟨_, hA1, allFalse_perm s c₀ _ hpermc hall⟩
    · exact ⟨c, by rw [hA2 cj hji]; exact hc, hall⟩
  -- propInv
  · intro hc cj c hcj hg
    by_cases hji : cj = w.clause
    · subst hji
      rw [hA1] at hcj
      cases hcj
      rcases H.propInv hc w.clause c₀ hci (by exact hg) with h | h
      · exact Or.inl (satisfiedC_perm s c₀ _ hpermc h)
      · right
        intro x hx
        unfold watchedPos at hx
        rw [show ({ c₀ with lits := lits2, pos := newPos } : Clause).lits = lits2 from rfl,
          hlg0, hlg1] at hx
        show 0 ≤ s.vals x ∨ pendingLit s (-x) ∨
          (x = L ∧ ∃ w' ∈ rest, w'.clause = w.clause)
        rcases hx with h1 | h1
        · -- x = a, the other watched literal
          have h2 := h a ((hwpc a).mpr (Or.inl rfl))
          rw [h1]
          rcases h2 with h3 | h3 | ⟨h3, _⟩
          · exact Or.inl h3
          · exact Or.inr (Or.inl h3)
          · exact absurd h3 haL
        · -- x = nl, the new unassigned watched literal
          left
          rw [h1]
          omega
    · rw [hA2 cj hji] at hcj
      rcases H.propInv hc cj c hcj hg with h | h
      · exact Or.inl h
      · right
        intro x hx
        rcases h x hx with h1 | h1 | ⟨hxL, w', hw', hcl⟩
        · exact Or.inl h1
        · exact Or.inr (Or.inl h1)
        · rcases List.mem_cons.mp hw' with rfl | h2
          · exact absurd hcl.symm hji
          · exact Or.inr (Or.inr ⟨hxL, w', h2, hcl⟩)

/-- The escape list being exhausted, the generalized invariant collapses
to the plain one. -/
theorem InvW_finish {L : Int} {W : Int → List Watch} {s : Internal}
    (H : InvW L [] W s) : InvW 0 [] W s := by
  refine ⟨H.symmV, H.trailOK, H.curBound, H.clauseOK, H.watchOK, H.uniq,
    H.watchedBoth, H.conflictOK, ?_⟩
  intro hc ci c hci hg
  rcases H.propInv hc ci c hci hg with h | h
  · exact Or.inl h
  · right
    intro x hx
    rcases h x hx with h1 | h1 | ⟨_, w', hw', _⟩
    · exact Or.inl h1
    · exact Or.inr (Or.inl h1)
    · cases hw'

/-- The master lemma: scanning a watch list preserves the invariant (with
the escape list emptied), extends the trail only by valid assignments, and
decreases the combined measure of trail length and unassigned count. -/
theorem scan_main (L : Int) :
    ∀ (i : List Watch) (s : Internal) (j : List Watch),
      InvW L i (updF s.watches L (j ++ i)) s →
      s.vals L < 0 → L ≠ 0 → L.natAbs ≤ s.vars →
      InvW 0 [] (updF (scanWatches L s i j).1.watches L (scanWatches L s i j).2)
        (scanWatches L s i j).1 ∧
      2 * unassignedCount (scanWatches L s i j).1 +
          (scanWatches L s i j).1.trail.length ≤
        2 * unassignedCount s + s.trail.length := by
  intro i
  induction i with
  | nil =>
    intro s j H hvL hLnz hLr
    rw [scanWatches_nil]
    rw [List.append_nil] at H
    exact ⟨InvW_finish H, Nat.le_of_eq rfl⟩
  | cons w rest ih =>
    intro s j H hvL hLnz hLr
    have hassoc : (j ++ [w]) ++ rest = j ++ w :: rest := by simp
    have hwmem := w_mem_scan L j rest s w
    obtain ⟨c₀, hci₀, hsz₀, h2₀, hblit₀, hbin₀, hlong₀⟩ := H.watchOK L w hwmem
    by_cases h1 : 0 < s.vals w.blit
    · -- blocking literal satisfied: keep the watch
      rw [scanWatches_blitTrue L s w rest j h1]
      have H' : InvW L rest (updF s.watches L ((j ++ [w]) ++ rest)) s := by
        rw [hassoc]
        refine InvW_resolve w H ?_
        intro hc c hciX hg
        left
        rw [hciX] at hci₀
        cases hci₀
        exact ⟨w.blit, hblit₀, h1⟩
      exact ih s (j ++ [w]) H' hvL hLnz hLr
    by_cases h2 : w.size = 2
    · -- binary clause
      rcases hbin₀ h2 with hs | hs
      · -- c₀.lits = [L, w.blit]
        by_cases h3 : s.vals w.blit < 0
        · -- binary conflict: record it and continue scanning
          rw [scanWatches_binConflict L s w rest j h1 h2 h3]
          have hall : allFalse s c₀ := by
            intro l hl
            rw [hs] at hl
            rcases List.mem_cons.mp hl with rfl | hl2
            · exact hvL
            · have : l = w.blit := by simpa using hl2
              rw [this]
              exact h3
          have H' : InvW L rest
              (updF { s with conflict := some w.clause }.watches L
                ((j ++ [w]) ++ rest)) { s with conflict := some w.clause } := by
            show InvW L rest (updF s.watches L ((j ++ [w]) ++ rest)) _
            rw [hassoc]
            exact InvW_setConflict L rest w.clause H ⟨c₀, hci₀, hall⟩
          exact ih { s with conflict := some w.clause } (j ++ [w]) H' hvL hLnz hLr
        · -- binary unit: assign the blocking literal
          rw [scanWatches_binAssign L s w rest j h1 h2 h3]
          have h0 : s.vals w.blit = 0 := by omega
          have hblitnz : w.blit ≠ 0 ∧ w.blit.natAbs ≤ s.vars := by
            obtain ⟨hr, _, _⟩ := H.clauseOK w.clause c₀ hci₀
            exact hr w.blit hblit₀
          have H2 : InvW L (w :: rest) (updF s.watches L (j ++ w :: rest))
              (inlined_assign s w.blit (some w.clause)) :=
            InvW_assign H w.blit (some w.clause) h0 hblitnz.1 hblitnz.2
          have H' : InvW L rest
              (updF (inlined_assign s w.blit (some w.clause)).watches L
                ((j ++ [w]) ++ rest)) (inlined_assign s w.blit (some w.clause)) := by
            refine InvW_congrW (fun X => by rw [inlined_assign_watches, hassoc]) ?_
            refine InvW_resolve w H2 ?_
            intro hc c hciX hg
            left
            rw [inlined_assign_arena] at hciX
            rw [hciX] at hci₀
            cases hci₀
            exact ⟨w.blit, hblit₀, by
              rw [assign_val_self s w.blit (some w.clause) hblitnz.1]
              omega⟩
          have hvL' : (inlined_assign s w.blit (some w.clause)).vals L < 0 :=
            assign_val_neg s w.blit (some w.clause) L hblitnz.1 h0 H.symmV hvL
          have hrec := ih (inlined_assign s w.blit (some w.clause)) (j ++ [w]) H' hvL'
            hLnz (by rw [inlined_assign_vars]; exact hLr)
          refine ⟨hrec.1, ?_⟩
          have hcount := assign_unassignedCount s w.blit (some w.clause)
            hblitnz.1 h0 H.symmV hblitnz.2
          have htrail : (inlined_assign s w.blit (some w.clause)).trail.length =
              s.trail.length + 1 := by
            rw [inlined_assign_trail]
            simp
          have := hrec.2
          omega
      · -- c₀.lits = [w.blit, L]: symmetric shapes, same arguments
        by_cases h3 : s.vals w.blit < 0
        · rw [scanWatches_binConflict L s w rest j h1 h2 h3]
          have hall : allFalse s c₀ := by
            intro l hl
            rw [hs] at hl
            rcases List.mem_cons.mp hl with rfl | hl2
            · exact h3
            · have : l = L := by simpa using hl2
              rw [this]
              exact hvL
          have H' : InvW L rest
              (updF { s with conflict := some w.clause }.watches L
                ((j ++ [w]) ++ rest)) { s with conflict := some w.clause } := by
            show InvW L rest (updF s.watches L ((j ++ [w]) ++ rest)) _
            rw [hassoc]
            exact InvW_setConflict L rest w.clause H ⟨c₀, hci₀, hall⟩
          exact ih { s with conflict := some w.clause } (j ++ [w]) H' hvL hLnz hLr
        · rw [scanWatches_binAssign L s w rest j h1 h2 h3]
          have h0 : s.vals w.blit = 0 := by omega
          have hblitnz : w.blit ≠ 0 ∧ w.blit.natAbs ≤ s.vars := by
            obtain ⟨hr, _, _⟩ := H.clauseOK w.clause c₀ hci₀
            exact hr w.blit hblit₀
          have H2 : InvW L (w :: rest) (updF s.watches L (j ++ w :: rest))
              (inlined_assign s w.blit (some w.clause)) :=
            InvW_assign H w.blit (some w.clause) h0 hblitnz.1 hblitnz.2
          have H' : InvW L rest
              (updF (inlined_assign s w.blit (some w.clause)).watches L
                ((j ++ [w]) ++ rest)) (inlined_assign s w.blit (some w.clause)) := by
            refine InvW_congrW (fun X => by rw [inlined_assign_watches, hassoc]) ?_
            refine InvW_resolve w H2 ?_
            intro hc c hciX hg
            left
            rw [inlined_assign_arena] at hciX
            rw [hciX] at hci₀
            cases hci₀
            exact ⟨w.blit, hblit₀, by
              rw [assign_val_self s w.blit (some w.clause) hblitnz.1]
              omega⟩
          have hvL' : (inlined_assign s w.blit (some w.clause)).vals L < 0 :=
            assign_val_neg s w.blit (some w.clause) L hblitnz.1 h0 H.symmV hvL
          have hrec := ih (inlined_assign s w.blit (some w.clause)) (j ++ [w]) H' hvL'
            hLnz (by rw [inlined_assign_vars]; exact hLr)
          refine ⟨hrec.1, ?_⟩
          have hcount := assign_unassignedCount s w.blit (some w.clause)
            hblitnz.1 h0 H.symmV hblitnz.2
          have htrail : (inlined_assign s w.blit (some w.clause)).trail.length =
              s.trail.length + 1 := by
            rw [inlined_assign_trail]
            simp
          have := hrec.2
          omega
    by_cases hg : (getClause s w.clause).garbage = true
    · -- garbage long clause: skipped
      rw [scanWatches_garbage L s w rest j h1 h2 hg]
      have H' : InvW L rest (updF s.watches L ((j ++ [w]) ++ rest)) s := by
        rw [hassoc]
        refine InvW_resolve w H ?_
        intro hc c hciX hgF
        exfalso
        rw [getClause_eq s w.clause c hciX] at hg
        rw [hgF] at hg
        cases hg
      exact ih s (j ++ [w]) H' hvL hLnz hLr
    · -- a live long clause
      obtain ⟨lits1, hl1⟩ : ∃ x, (if (getClause s w.clause).lits.getD 0 0 = L
          then swap01 (getClause s w.clause).lits
          else (getClause s w.clause).lits) = x := ⟨_, rfl⟩
      obtain ⟨c₀, hci', hget, hlen3, hszlen, hperm, hlen1, hw0, hL1, hnd1, hrange1,
        hposrange⟩ := long_setup H h2 hl1.symm
      rw [hci'] at hci₀
      cases hci₀
      have hlenl : lits1.length = c₀.lits.length := hlen1
      have hd0mem : lits1.getD 0 0 ∈ lits1 := getD_mem (by omega)
      have hd0c : lits1.getD 0 0 ∈ c₀.lits := hperm.mem_iff.mp hd0mem
      have hd0r : lits1.getD 0 0 ≠ 0 ∧ (lits1.getD 0 0).natAbs ≤ s.vars :=
        hrange1 _ hd0mem
      by_cases hu : 0 < s.vals (lits1.getD 0 0)
      · -- other watched literal true: replace the blocking literal
        rw [scanWatches_longSat L s w rest j h1 h2 hg lits1 hl1.symm hu, hget]
        have H1 : InvW L (w :: rest) (updF s.watches L (j ++ w :: rest))
            (setClause s w.clause { c₀ with lits := lits1, pos := c₀.pos }) :=
          InvW_normalize H w.clause c₀ hci' lits1 c₀.pos hperm hw0 hposrange hlen3
        have hA : (setClause s w.clause
            { c₀ with lits := lits1, pos := c₀.pos }).arena[w.clause]? =
            some { c₀ with lits := lits1, pos := c₀.pos } :=
          setClause_get_self s w.clause c₀ _ hci'
        have H3 := InvW_chblit (s := setClause s w.clause
            { c₀ with lits := lits1, pos := c₀.pos }) w (lits1.getD 0 0) H1 h2
          (by
            intro c hc
            rw [hA] at hc
            cases hc
            exact hd0mem)
        have H4 := InvW_resolve { w with blit := lits1.getD 0 0 } H3 (by
          intro hc c hcX hgX
          left
          rw [show ({ w with blit := lits1.getD 0 0 } : Watch).clause = w.clause from rfl]
            at hcX
          rw [hA] at hcX
          cases hcX
          exact ⟨lits1.getD 0 0, hd0mem, hu⟩)
        have hlist : (j ++ [{ w with blit := lits1.getD 0 0 }]) ++ rest =
            j ++ { w with blit := lits1.getD 0 0 } :: rest := by simp
        have H' : InvW L rest
            (updF (setClause s w.clause
              { c₀ with lits := lits1, pos := c₀.pos }).watches L
              ((j ++ [{ w with blit := lits1.getD 0 0 }]) ++ rest))
            (setClause s w.clause { c₀ with lits := lits1, pos := c₀.pos }) :=
          InvW_congrW (fun X => by rw [hlist]) H4
        exact ih (setClause s w.clause { c₀ with lits := lits1, pos := c₀.pos })
          (j ++ [{ w with blit := lits1.getD 0 0 }]) H' hvL hLnz hLr
      · -- search for a replacement literal
        obtain ⟨r, hr1⟩ : ∃ x, searchReplacement s.vals lits1 w.size
            (getClause s w.clause).pos (getClause s w.clause).havePos = x := ⟨_, rfl⟩
        rw [hget] at hr1
        have hposarg : c₀.havePos = true → 2 ≤ c₀.pos ∧ c₀.pos ≤ w.size := by
          intro hp
          obtain ⟨ha, hb⟩ := hposrange hp
          exact ⟨ha, by omega⟩
        have hbounds := searchReplacement_bounds s.vals lits1 w.size c₀.pos
          c₀.havePos (by omega) hposarg
        rw [hr1] at hbounds
        have hnewpos : c₀.havePos = true → 2 ≤ r.2.2 ∧ r.2.2 ≤ lits1.length := by
          intro hp
          obtain ⟨ha, hb⟩ := hbounds.2.2.1 hp
          exact ⟨ha, by omega⟩
        by_cases hv : 0 < r.2.1
        · -- found a true literal
          rw [scanWatches_searchTrue L s w rest j h1 h2 hg lits1 hl1.symm hu r
            (by rw [← hr1, hget]) hv, hget]
          have hfound := searchReplacement_found s.vals lits1 w.size c₀.pos
            c₀.havePos (by omega) hposarg (by rw [hr1]; omega)
          rw [hr1] at hfound
          have hkmem : lits1.getD r.1 0 ∈ lits1 := getD_mem (by omega)
          have H1 : InvW L (w :: rest) (updF s.watches L (j ++ w :: rest))
              (setClause s w.clause { c₀ with lits := lits1, pos := r.2.2 }) :=
            InvW_normalize H w.clause c₀ hci' lits1 r.2.2 hperm hw0 hnewpos hlen3
          have hA : (setClause s w.clause
              { c₀ with lits := lits1, pos := r.2.2 }).arena[w.clause]? =
              some { c₀ with lits := lits1, pos := r.2.2 } :=
            setClause_get_self s w.clause c₀ _ hci'
          have H3 := InvW_chblit (s := setClause s w.clause
              { c₀ with lits := lits1, pos := r.2.2 }) w (lits1.getD r.1 0) H1 h2
            (by
              intro c hc
              rw [hA] at hc
              cases hc
              exact hkmem)
          have H4 := InvW_resolve { w with blit := lits1.getD r.1 0 } H3 (by
            intro hc c hcX hgX
            left
            rw [show ({ w with blit := lits1.getD r.1 0 } : Watch).clause = w.clause
              from rfl] at hcX
            rw [hA] at hcX
            cases hcX
            refine ⟨lits1.getD r.1 0, hkmem, ?_⟩
            show 0 < s.vals (lits1.getD r.1 0)
            have := hfound.2.2
            omega)
          have hlist : (j ++ [{ w with blit := lits1.getD r.1 0 }]) ++ rest =
              j ++ { w with blit := lits1.getD r.1 0 } :: rest := by simp
          have H' : InvW L rest
              (updF (setClause s w.clause
                { c₀ with lits := lits1, pos := r.2.2 }).watches L
                ((j ++ [{ w with blit := lits1.getD r.1 0 }]) ++ rest))
              (setClause s w.clause { c₀ with lits := lits1, pos := r.2.2 }) :=
            InvW_congrW (fun X => by rw [hlist]) H4
          exact ih (setClause s w.clause { c₀ with lits := lits1, pos := r.2.2 })
            (j ++ [{ w with blit := lits1.getD r.1 0 }]) H' hvL hLnz hLr
        by_cases hv2 : r.2.1 = 0
        · -- found an unassigned replacement: relocate the watch
          rw [scanWatches_rewatch L s w rest j h1 h2 hg lits1 hl1.symm hu r
            (by rw [← hr1, hget]) hv hv2, hget]
          have hfound := searchReplacement_found s.vals lits1 w.size c₀.pos
            c₀.havePos (by omega) hposarg (by rw [hr1]; omega)
          rw [hr1] at hfound
          have H' := InvW_rewatch H hci' hvL hlen3 hszlen hperm hw0 hL1 hnd1
            hfound.1 (by omega) hnewpos (by
              have := hfound.2.2
              omega) hu
          exact ih _ j H' hvL hLnz hLr
        by_cases hz : s.vals (lits1.getD 0 0) = 0
        · -- no replacement, other watched literal unassigned: assign it
          rw [scanWatches_longUnit L s w rest j h1 h2 hg lits1 hl1.symm hu r
            (by rw [← hr1, hget]) hv hv2 hz, hget]
          have H1 : InvW L (w :: rest) (updF s.watches L (j ++ w :: rest))
              (setClause s w.clause { c₀ with lits := lits1, pos := r.2.2 }) :=
            InvW_normalize H w.clause c₀ hci' lits1 r.2.2 hperm hw0 hnewpos hlen3
          have hA : (setClause s w.clause
              { c₀ with lits := lits1, pos := r.2.2 }).arena[w.clause]? =
              some { c₀ with lits := lits1, pos := r.2.2 } :=
            setClause_get_self s w.clause c₀ _ hci'
          have H2 : InvW L (w :: rest) (updF s.watches L (j ++ w :: rest))
              (inlined_assign (setClause s w.clause
                { c₀ with lits := lits1, pos := r.2.2 })
                (lits1.getD 0 0) (some w.clause)) :=
            InvW_assign H1 (lits1.getD 0 0) (some w.clause) hz hd0r.1 hd0r.2
          have H3 := InvW_resolve w H2 (by
            intro hc c hcX hgX
            left
            rw [inlined_assign_arena] at hcX
            rw [hA] at hcX
            cases hcX
            refine ⟨lits1.getD 0 0, hd0mem, ?_⟩
            rw [show (inlined_assign (setClause s w.clause
                { c₀ with lits := lits1, pos := r.2.2 })
                (lits1.getD 0 0) (some w.clause)).vals =
              (inlined_assign (setClause s w.clause
                { c₀ with lits := lits1, pos := r.2.2 })
                (lits1.getD 0 0) (some w.clause)).vals from rfl]
            rw [assign_val_self _ (lits1.getD 0 0) (some w.clause) hd0r.1]
            omega)
          have H' : InvW L rest
              (updF (inlined_assign (setClause s w.clause
                { c₀ with lits := lits1, pos := r.2.2 })
                (lits1.getD 0 0) (some w.clause)).watches L
                ((j ++ [w]) ++ rest))
              (inlined_assign (setClause s w.clause
                { c₀ with lits := lits1, pos := r.2.2 })
                (lits1.getD 0 0) (some w.clause)) :=
            InvW_congrW (fun X => by
              rw [inlined_assign_watches]
              show updF s.watches L ((j ++ [w]) ++ rest) X =
                updF s.watches L (j ++ w :: rest) X
              rw [hassoc]) H3
          have hvL' : (inlined_assign (setClause s w.clause
              { c₀ with lits := lits1, pos := r.2.2 })
              (lits1.getD 0 0) (some w.clause)).vals L < 0 :=
            assign_val_neg _ (lits1.getD 0 0) (some w.clause) L hd0r.1 hz H1.symmV hvL
          have hrec := ih (inlined_assign (setClause s w.clause
              { c₀ with lits := lits1, pos := r.2.2 })
              (lits1.getD 0 0) (some w.clause)) (j ++ [w]) H' hvL' hLnz
            (by rw [inlined_assign_vars]; exact hLr)
          refine ⟨hrec.1, ?_⟩
          have hcount := assign_unassignedCount (setClause s w.clause
              { c₀ with lits := lits1, pos := r.2.2 }) (lits1.getD 0 0)
            (some w.clause) hd0r.1 hz H1.symmV hd0r.2
          have hUeq : unassignedCount (setClause s w.clause
              { c₀ with lits := lits1, pos := r.2.2 }) = unassignedCount s := rfl
          have htrail : (inlined_assign (setClause s w.clause
              { c₀ with lits := lits1, pos := r.2.2 })
              (lits1.getD 0 0) (some w.clause)).trail.length = s.trail.length + 1 := by
            rw [inlined_assign_trail]
            simp [setClause]
          exact le_trans hrec.2 (by omega)
        · -- no replacement, other watched literal false: conflict, break
          rw [scanWatches_longConflict L s w rest j h1 h2 hg lits1 hl1.symm hu r
            (by rw [← hr1, hget]) hv hv2 hz, hget]
          have hallF : ∀ l ∈ lits1, s.vals l < 0 := by
            intro l hl
            obtain ⟨n, hn, he⟩ := mem_exists_getD hl
            rcases Nat.lt_or_ge n 2 with hn2 | hn2
            · interval_cases n
              · rw [← he]
                omega
              · rw [← he, hL1]
                exact hvL
            · have hnf := searchReplacement_notFound s.vals lits1 w.size c₀.pos
                c₀.havePos (by omega) hposarg (by rw [hr1]; omega) n hn2 (by omega)
              rw [he] at hnf
              exact hnf
          have H1 : InvW L (w :: rest) (updF s.watches L (j ++ w :: rest))
              (setClause s w.clause { c₀ with lits := lits1, pos := r.2.2 }) :=
            InvW_normalize H w.clause c₀ hci' lits1 r.2.2 hperm hw0 hnewpos hlen3
          have hA : (setClause s w.clause
              { c₀ with lits := lits1, pos := r.2.2 }).arena[w.clause]? =
              some { c₀ with lits := lits1, pos := r.2.2 } :=
            setClause_get_self s w.clause c₀ _ hci'
          constructor
          · exact InvW_setConflict 0 [] w.clause H1
              ⟨{ c₀ with lits := lits1, pos := r.2.2 }, hA, fun l hl => hallF l hl⟩
          · exact Nat.le_of_eq rfl

/-- The invariant only reads the value store, trail, cursor, arena,
conflict marker and variable count of the state. -/
theorem InvW_of_fields {L : Int} {esc : List Watch} {W : Int → List Watch}
    {s1 s2 : Internal} (H : InvW L esc W s1)
    (hvals : s2.vals = s1.vals) (htrail : s2.trail = s1.trail)
    (hprop : s2.propagated = s1.propagated) (hvars : s2.vars = s1.vars)
    (harena : s2.arena = s1.arena) (hconf : s2.conflict = s1.conflict) :
    InvW L esc W s2 := by
  cases s1
  cases s2
  simp only at hvals htrail hprop hvars harena hconf
  subst hvals htrail hprop hvars harena hconf
  exact ⟨H.symmV, H.trailOK, H.curBound, H.clauseOK, H.watchOK, H.uniq,
    H.watchedBoth, H.conflictOK, H.propInv⟩

/-- One iteration of the outer propagation loop preserves the invariant,
decreases the termination measure, advances the cursor by one and only
appends to the trail. -/
theorem step_main (s : Internal) (HI : Inv s) (hlt : s.propagated < s.trail.length) :
    Inv (propagateStep s) ∧ mu (propagateStep s) < mu s ∧
    (∃ u, (propagateStep s).trail = s.trail ++ u) ∧
    (propagateStep s).propagated = s.propagated + 1 ∧
    (propagateStep s).vars = s.vars ∧
    (propagateStep s).simplifying = s.simplifying := by
  have ht : s.trail.getD s.propagated 0 ∈ s.trail := getD_mem hlt
  obtain ⟨htnz, htr, htv⟩ := HI.trailOK _ ht
  have hvL : s.vals (-(s.trail.getD s.propagated 0)) < 0 := by
    rw [HI.symmV]
    omega
  have hLnz : -(s.trail.getD s.propagated 0) ≠ 0 := by omega
  have hLr : (-(s.trail.getD s.propagated 0)).natAbs ≤ s.vars := by
    rw [Int.natAbs_neg]
    exact htr
  have hgetel : s.trail[s.propagated] = s.trail.getD s.propagated 0 :=
    (List.getD_eq_getElem s.trail 0 hlt).symm
  have H0 : InvW (-(s.trail.getD s.propagated 0))
      (s.watches (-(s.trail.getD s.propagated 0))) s.watches
      { s with propagated := s.propagated + 1 } := by
    refine ⟨HI.symmV, HI.trailOK, by show s.propagated + 1 ≤ s.trail.length; omega,
      HI.clauseOK, HI.watchOK, HI.uniq, HI.watchedBoth, HI.conflictOK, ?_⟩
    intro hc ci c hci hg
    rcases HI.propInv hc ci c hci hg with h | h
    · exact Or.inl h
    · right
      intro x hx
      rcases h x hx with h1 | h1 | ⟨_, w', hw', _⟩
      · exact Or.inl h1
      · unfold pendingLit at h1
        rw [List.drop_eq_getElem_cons hlt] at h1
        rcases List.mem_cons.mp h1 with he | hrest
        · right; right
          rw [hgetel] at he
          have hxL : x = -(s.trail.getD s.propagated 0) := by omega
          refine ⟨hxL, ?_⟩
          obtain ⟨⟨w1, hw1, hc1⟩, ⟨w2, hw2, hc2⟩⟩ := HI.watchedBoth ci c hci hg
          rcases hx with hx0 | hx0
          · refine ⟨w1, ?_, hc1⟩
            rw [← hxL, hx0]
            exact hw1
          · refine ⟨w2, ?_, hc2⟩
            rw [← hxL, hx0]
            exact hw2
        · right; left
          show -x ∈ s.trail.drop (s.propagated + 1)
          exact hrest
      · cases hw'
  have H1 : InvW (-(s.trail.getD s.propagated 0))
      ({ s with propagated := s.propagated + 1 }.watches
        (-(s.trail.getD s.propagated 0)))
      (updF { s with propagated := s.propagated + 1 }.watches
        (-(s.trail.getD s.propagated 0))
        ([] ++ { s with propagated := s.propagated + 1 }.watches
          (-(s.trail.getD s.propagated 0))))
      { s with propagated := s.propagated + 1 } := by
    refine InvW_congrW ?_ H0
    intro X
    show updF s.watches (-(s.trail.getD s.propagated 0))
      (s.watches (-(s.trail.getD s.propagated 0))) X = s.watches X
    by_cases hX : X = -(s.trail.getD s.propagated 0)
    · rw [updF_apply, if_pos hX, hX]
    · rw [updF_apply, if_neg hX]
  have hrec := scan_main (-(s.trail.getD s.propagated 0))
    ({ s with propagated := s.propagated + 1 }.watches
      (-(s.trail.getD s.propagated 0)))
    { s with propagated := s.propagated + 1 } [] H1 hvL hLnz hLr
  have hfr := scan_frame (-(s.trail.getD s.propagated 0))
    ({ s with propagated := s.propagated + 1 }.watches
      (-(s.trail.getD s.propagated 0)))
    { s with propagated := s.propagated + 1 } []
  obtain ⟨hfp, hfv, hfs, hfl, ⟨u, hfu⟩, hfc⟩ := hfr
  refine ⟨?_, ?_, ?_, ?_, ?_, ?_⟩
  · show InvW 0 [] (propagateStep s).watches (propagateStep s)
    exact InvW_of_fields hrec.1 rfl rfl rfl rfl rfl rfl
  · have hacct := hrec.2
    have hcur := hrec.1.curBound
    show (propagateStep s).trail.length - (propagateStep s).propagated +
      2 * unassignedCount (propagateStep s) <
      s.trail.length - s.propagated + 2 * unassignedCount s
    have e1 : (propagateStep s).trail.length =
        (scanWatches (-(s.trail.getD s.propagated 0))
          { s with propagated := s.propagated + 1 }
          ({ s with propagated := s.propagated + 1 }.watches
            (-(s.trail.getD s.propagated 0))) []).1.trail.length := rfl
    have e2 : (propagateStep s).propagated =
        (scanWatches (-(s.trail.getD s.propagated 0))
          { s with propagated := s.propagated + 1 }
          ({ s with propagated := s.propagated + 1 }.watches
            (-(s.trail.getD s.propagated 0))) []).1.propagated := rfl
    have e3 : unassignedCount (propagateStep s) =
        unassignedCount (scanWatches (-(s.trail.getD s.propagated 0))
          { s with propagated := s.propagated + 1 }
          ({ s with propagated := s.propagated + 1 }.watches
            (-(s.trail.getD s.propagated 0))) []).1 := rfl
    have e4 : unassignedCount { s with propagated := s.propagated + 1 } =
        unassignedCount s := rfl
    have e5 : ({ s with propagated := s.propagated + 1 } :
        Internal).trail.length = s.trail.length := rfl
    rw [e1, e2, e3]
    have hp2 : (scanWatches (-(s.trail.getD s.propagated 0))
        { s with propagated := s.propagated + 1 }
        ({ s with propagated := s.propagated + 1 }.watches
          (-(s.trail.getD s.propagated 0))) []).1.propagated =
        s.propagated + 1 := hfp
    rw [e4, e5] at hacct
    rw [hp2] at hcur ⊢
    omega
  · exact ⟨u, hfu⟩
  · exact hfp
  · exact hfv
  · exact hfs

/-- The outer loop preserves the invariant, only appends to the trail,
never moves the cursor backwards; with enough fuel, a conflict-free run
ends exactly at the end of the trail. -/
theorem loop_main :
    ∀ (fuel : Nat) (s : Internal), Inv s →
      Inv (propagateLoop fuel s) ∧
      (∃ u, (propagateLoop fuel s).trail = s.trail ++ u) ∧
      s.propagated ≤ (propagateLoop fuel s).propagated ∧
      (propagateLoop fuel s).vars = s.vars ∧
      (propagateLoop fuel s).simplifying = s.simplifying ∧
      (mu s < fuel → (propagateLoop fuel s).conflict = none →
        (propagateLoop fuel s).propagated = (propagateLoop fuel s).trail.length) := by
  intro fuel
  induction fuel with
  | zero =>
    intro s HI
    rw [propagateLoop]
    exact ⟨HI, ⟨[], by simp⟩, le_refl _, rfl, rfl, fun h => absurd h (by omega)⟩
  | succ f ihf =>
    intro s HI
    rw [propagateLoop]
    by_cases hcond : s.conflict = none ∧ s.propagated < s.trail.length
    · rw [if_pos hcond]
      obtain ⟨H1, hmu, ⟨u1, hext⟩, hpp, hvars, hsimp⟩ := step_main s HI hcond.2
      obtain ⟨H2, ⟨u2, hext2⟩, hpp2, hvars2, hsimp2, hfix⟩ := ihf (propagateStep s) H1
      refine ⟨H2, ⟨u1 ++ u2, by rw [hext2, hext, List.append_assoc]⟩, by omega,
        hvars2.trans hvars, hsimp2.trans hsimp, ?_⟩
      intro hf
      exact hfix (by omega)
    · rw [if_neg hcond]
      refine ⟨HI, ⟨[], by simp⟩, le_refl _, rfl, rfl, ?_⟩
      intro _ hcn
      have := HI.curBound
      rcases not_and_or.mp hcond with h | h
      · exact absurd hcn h
      · omega

/-- The statistics epilogue of `propagate` does not change any component
except the statistics counters. -/
theorem propagate_components (s : Internal) :
    (propagate s).trail = (propagateLoop (propagateFuel s) s).trail ∧
    (propagate s).vals = (propagateLoop (propagateFuel s) s).vals ∧
    (propagate s).arena = (propagateLoop (propagateFuel s) s).arena ∧
    (propagate s).conflict = (propagateLoop (propagateFuel s) s).conflict ∧
    (propagate s).propagated = (propagateLoop (propagateFuel s) s).propagated ∧
    (propagate s).watches = (propagateLoop (propagateFuel s) s).watches ∧
    (propagate s).vars = (propagateLoop (propagateFuel s) s).vars ∧
    (propagate s).simplifying = (propagateLoop (propagateFuel s) s).simplifying := by
  simp only [propagate]
  split <;> split <;> exact ⟨rfl, rfl, rfl, rfl, rfl, rfl, rfl, rfl⟩

/-! ### The loop runs to completion: fuel and final-state facts -/

theorem unassignedCount_le (s : Internal) : unassignedCount s ≤ s.vars := by
  unfold unassignedCount
  exact le_trans (List.countP_le_length _) (le_of_eq (List.length_range _))

theorem mu_lt_fuel (s : Internal) : mu s < propagateFuel s := by
  have := unassignedCount_le s
  unfold mu propagateFuel
  omega

/-- The state reached by the loop inside `propagate` satisfies the
invariant, and if no conflict was found the cursor reached the end of
the trail. -/
theorem propagate_post (s : Internal) (HI : Inv s) :
    Inv (propagateLoop (propagateFuel s) s) ∧
    ((propagateLoop (propagateFuel s) s).conflict = none →
      (propagateLoop (propagateFuel s) s).propagated =
        (propagateLoop (propagateFuel s) s).trail.length) := by
  obtain ⟨H, _, _, _, _, hfix⟩ := loop_main (propagateFuel s) s HI
  exact ⟨H, hfix (mu_lt_fuel s)⟩

/-! ### Invariant proofs for the concrete states -/

theorem countP_clause_le_one (ci : Nat) (l : List Watch)
    (h : (l.map Watch.clause).Nodup) :
    l.countP (fun w => w.clause == ci) ≤ 1 := by
  induction l with
  | nil => simp
  | cons w t ih =>
    simp only [List.map_cons, List.nodup_cons] at h
    rw [List.countP_cons]
    by_cases hw : w.clause = ci
    · have hz : t.countP (fun w => w.clause == ci) = 0 := by
        rw [List.countP_eq_zero]
        intro w' hw'
        simp only [beq_iff_eq]
        intro he
        apply h.1
        rw [hw, ← he]
        exact List.mem_map_of_mem _ hw'
      simp [hw, hz]
    · have : (w.clause == ci) = false := by simp [hw]
      rw [this]
      simpa using ih h.2

theorem Inv_demo0 : Inv demo0 := by
  refine ⟨?_, ?_, ?_, ?_, ?_, ?_, ?_, ?_, ?_⟩
  · intro l; simp [demo0]
  · intro t ht; simp [demo0] at ht
  · exact le_refl _
  · intro ci c hci; simp [demo0] at hci
  · intro X w hw; simp [demo0] at hw
  · intro X ci; simp [demo0]
  · intro ci c hci _; simp [demo0] at hci
  · intro ci hci; simp [demo0] at hci
  · intro _ ci c hci _; simp [demo0] at hci

theorem Inv_confState : Inv confState := by
  refine ⟨?_, ?_, ?_, ?_, ?_, ?_, ?_, ?_, ?_⟩
  · intro l
    show valsOf [(1, -1), (-1, 1)] (-l) = - valsOf [(1, -1), (-1, 1)] l
    simp only [valsOf]
    split_ifs <;> omega
  · intro t ht
    rw [show confState.trail = [-1] from rfl, List.mem_singleton] at ht
    subst ht
    exact ⟨by decide, by decide, by decide⟩
  · exact le_refl _
  · intro ci c hci
    rcases ci with _ | n
    · have h : c = ⟨[1], true, false, 0⟩ :=
        (Option.some.inj ((rfl : confState.arena[0]? = some
            ((⟨[1], true, false, 0⟩ : Clause))).symm.trans hci)).symm
      subst h
      exact ⟨by decide, by decide, by decide⟩
    · exact Option.noConfusion
        ((rfl : (none : Option Clause) = confState.arena[n + 1]?).trans hci)
  · intro X w hw
    exact absurd hw (by simp [confState])
  · intro X ci
    show List.countP _ ([] : List Watch) ≤ 1
    simp
  · intro ci c hci hg
    rcases ci with _ | n
    · have h : c = ⟨[1], true, false, 0⟩ :=
        (Option.some.inj ((rfl : confState.arena[0]? = some
            ((⟨[1], true, false, 0⟩ : Clause))).symm.trans hci)).symm
      subst h
      exact absurd hg (by decide)
    · exact Option.noConfusion
        ((rfl : (none : Option Clause) = confState.arena[n + 1]?).trans hci)
  · intro ci hci
    have h : ci = 0 :=
      (Option.some.inj ((rfl : confState.conflict = some 0).symm.trans hci)).symm
    subst h
    exact ⟨⟨[1], true, false, 0⟩, rfl, by decide⟩
  · intro hc
    exact Option.noConfusion ((rfl : confState.conflict = some 0).symm.trans hc)

theorem Inv_C1state : Inv C1state := by
  refine ⟨?_, ?_, ?_, ?_, ?_, ?_, ?_, ?_, ?_⟩
  · intro l
    show valsOf [(2, -1), (-2, 1)] (-l) = - valsOf [(2, -1), (-2, 1)] l
    simp only [valsOf]
    split_ifs <;> omega
  · intro t ht
    rw [show C1state.trail = [-2] from rfl, List.mem_singleton] at ht
    subst ht
    exact ⟨by decide, by decide, by decide⟩
  · exact Nat.zero_le _
  · intro ci c hci
    rcases ci with _ | _ | _ | n
    · have h : c = ⟨[1, 2], false, false, 0⟩ :=
        (Option.some.inj ((rfl : C1state.arena[0]? = some
            ((⟨[1, 2], false, false, 0⟩ : Clause))).symm.trans hci)).symm
      subst h
      exact ⟨by decide, by decide, by decide⟩
    · have h : c = ⟨[3, 2], false, false, 0⟩ :=
        (Option.some.inj ((rfl : C1state.arena[1]? = some
            ((⟨[3, 2], false, false, 0⟩ : Clause))).symm.trans hci)).symm
      subst h
      exact ⟨by decide, by decide, by decide⟩
    · have h : c = ⟨[-1, 2], false, false, 0⟩ :=
        (Option.some.inj ((rfl : C1state.arena[2]? = some
            ((⟨[-1, 2], false, false, 0⟩ : Clause))).symm.trans hci)).symm
      subst h
      exact ⟨by decide, by decide, by decide⟩
    · exact Option.noConfusion
        ((rfl : (none : Option Clause) = C1state.arena[n + 3]?).trans hci)
  · intro X w hw
    have hw' : w ∈ watchesOf [(2, [⟨-1, 2, 2⟩, ⟨1, 2, 0⟩, ⟨3, 2, 1⟩]),
        (1, [⟨2, 2, 0⟩]), (3, [⟨2, 2, 1⟩]), (-1, [⟨2, 2, 2⟩])] X := hw
    simp only [watchesOf] at hw'
    split_ifs at hw' with h1 h2 h3 h4
    · subst h1
      simp only [List.mem_cons, List.not_mem_nil, or_false] at hw'
      rcases hw' with rfl | rfl | rfl
      · exact ⟨⟨[-1, 2], false, false, 0⟩, rfl, by decide⟩
      · exact ⟨⟨[1, 2], false, false, 0⟩, rfl, by decide⟩
      · exact ⟨⟨[3, 2], false, false, 0⟩, rfl, by decide⟩
    · subst h2
      simp only [List.mem_cons, List.not_mem_nil, or_false] at hw'
      rcases hw' with rfl
      exact ⟨⟨[1, 2], false, false, 0⟩, rfl, by decide⟩
    · subst h3
      simp only [List.mem_cons, List.not_mem_nil, or_false] at hw'
      rcases hw' with rfl
      exact ⟨⟨[3, 2], false, false, 0⟩, rfl, by decide⟩
    · subst h4
      simp only [List.mem_cons, List.not_mem_nil, or_false] at hw'
      rcases hw' with rfl
      exact ⟨⟨[-1, 2], false, false, 0⟩, rfl, by decide⟩
    · simp at hw'
  · intro X ci
    show List.countP _ (watchesOf [(2, [⟨-1, 2, 2⟩, ⟨1, 2, 0⟩, ⟨3, 2, 1⟩]),
        (1, [⟨2, 2, 0⟩]), (3, [⟨2, 2, 1⟩]), (-1, [⟨2, 2, 2⟩])] X) ≤ 1
    simp only [watchesOf]
    split_ifs <;> exact countP_clause_le_one ci _ (by decide)
  · intro ci c hci hg
    rcases ci with _ | _ | _ | n
    · have h : c = ⟨[1, 2], false, false, 0⟩ :=
        (Option.some.inj ((rfl : C1state.arena[0]? = some
            ((⟨[1, 2], false, false, 0⟩ : Clause))).symm.trans hci)).symm
      subst h
      exact ⟨⟨⟨2, 2, 0⟩, by decide, rfl⟩, ⟨⟨1, 2, 0⟩, by decide, rfl⟩⟩
    · have h : c = ⟨[3, 2], false, false, 0⟩ :=
        (Option.some.inj ((rfl : C1state.arena[1]? = some
            ((⟨[3, 2], false, false, 0⟩ : Clause))).symm.trans hci)).symm
      subst h
      exact ⟨⟨⟨2, 2, 1⟩, by decide, rfl⟩, ⟨⟨3, 2, 1⟩, by decide, rfl⟩⟩
    · have h : c = ⟨[-1, 2], false, false, 0⟩ :=
        (Option.some.inj ((rfl : C1state.arena[2]? = some
            ((⟨[-1, 2], false, false, 0⟩ : Clause))).symm.trans hci)).symm
      subst h
      exact ⟨⟨⟨2, 2, 2⟩, by decide, rfl⟩, ⟨⟨-1, 2, 2⟩, by decide, rfl⟩⟩
    · exact Option.noConfusion
        ((rfl : (none : Option Clause) = C1state.arena[n + 3]?).trans hci)
  · intro ci hci
    exact Option.noConfusion ((rfl : C1state.conflict = none).symm.trans hci)
  · intro hc ci c hci hg
    rcases ci with _ | _ | _ | n
    · have h : c = ⟨[1, 2], false, false, 0⟩ :=
        (Option.some.inj ((rfl : C1state.arena[0]? = some
            ((⟨[1, 2], false, false, 0⟩ : Clause))).symm.trans hci)).symm
      subst h
      right
      intro x hx
      have hx2 : x = 1 ∨ x = 2 := hx
      rcases hx2 with rfl | rfl
      · left; decide
      · right; left; decide
    · have h : c = ⟨[3, 2], false, false, 0⟩ :=
        (Option.some.inj ((rfl : C1state.arena[1]? = some
            ((⟨[3, 2], false, false, 0⟩ : Clause))).symm.trans hci)).symm
      subst h
      right
      intro x hx
      have hx2 : x = 3 ∨ x = 2 := hx
      rcases hx2 with rfl | rfl
      · left; decide
      · right; left; decide
    · have h : c = ⟨[-1, 2], false, false, 0⟩ :=
        (Option.some.inj ((rfl : C1state.arena[2]? = some
            ((⟨[-1, 2], false, false, 0⟩ : Clause))).symm.trans hci)).symm
      subst h
      right
      intro x hx
      have hx2 : x = -1 ∨ x = 2 := hx
      rcases hx2 with rfl | rfl
      · left; decide
      · right; left; decide
    · exact Option.noConfusion
        ((rfl : (none : Option Clause) = C1state.arena[n + 3]?).trans hci)

theorem Inv_C4state : Inv C4state := by
  refine ⟨?_, ?_, ?_, ?_, ?_, ?_, ?_, ?_, ?_⟩
  · intro l
    show valsOf [(1, -1), (-1, 1), (2, -1), (-2, 1)] (-l) =
      - valsOf [(1, -1), (-1, 1), (2, -1), (-2, 1)] l
    simp only [valsOf]
    split_ifs <;> omega
  · intro t ht
    rw [show C4state.trail = [-2] from rfl, List.mem_singleton] at ht
    subst ht
    exact ⟨by decide, by decide, by decide⟩
  · exact Nat.zero_le _
  · intro ci c hci
    rcases ci with _ | n
    · have h : c = ⟨[1, 2], true, false, 0⟩ :=
        (Option.some.inj ((rfl : C4state.arena[0]? = some
            ((⟨[1, 2], true, false, 0⟩ : Clause))).symm.trans hci)).symm
      subst h
      exact ⟨by decide, by decide, by decide⟩
    · exact Option.noConfusion
        ((rfl : (none : Option Clause) = C4state.arena[n + 1]?).trans hci)
  · intro X w hw
    have hw' : w ∈ watchesOf [(1, [⟨2, 2, 0⟩]), (2, [⟨1, 2, 0⟩])] X := hw
    simp only [watchesOf] at hw'
    split_ifs at hw' with h1 h2
    · subst h1
      simp only [List.mem_cons, List.not_mem_nil, or_false] at hw'
      rcases hw' with rfl
      exact ⟨⟨[1, 2], true, false, 0⟩, rfl, by decide⟩
    · subst h2
      simp only [List.mem_cons, List.not_mem_nil, or_false] at hw'
      rcases hw' with rfl
      exact ⟨⟨[1, 2], true, false, 0⟩, rfl, by decide⟩
    · simp at hw'
  · intro X ci
    show List.countP _ (watchesOf [(1, [⟨2, 2, 0⟩]), (2, [⟨1, 2, 0⟩])] X) ≤ 1
    simp only [watchesOf]
    split_ifs <;> exact countP_clause_le_one ci _ (by decide)
  · intro ci c hci hg
    rcases ci with _ | n
    · have h : c = ⟨[1, 2], true, false, 0⟩ :=
        (Option.some.inj ((rfl : C4state.arena[0]? = some
            ((⟨[1, 2], true, false, 0⟩ : Clause))).symm.trans hci)).symm
      subst h
      exact absurd hg (by decide)
    · exact Option.noConfusion
        ((rfl : (none : Option Clause) = C4state.arena[n + 1]?).trans hci)
  · intro ci hci
    exact Option.noConfusion ((rfl : C4state.conflict = none).symm.trans hci)
  · intro hc ci c hci hg
    rcases ci with _ | n
    · have h : c = ⟨[1, 2], true, false, 0⟩ :=
        (Option.some.inj ((rfl : C4state.arena[0]? = some
            ((⟨[1, 2], true, false, 0⟩ : Clause))).symm.trans hci)).symm
      subst h
      exact absurd hg (by decide)
    · exact Option.noConfusion
        ((rfl : (none : Option Clause) = C4state.arena[n + 1]?).trans hci)

/-! ### The claims -/

/-- C1 (corrected).  When a binary watch's blocking literal is false the
clause is recorded as the conflict, but — contrary to the claim — the
scan of the current watch list does *not* stop: the watch is kept and
the remaining watches are still processed, so further assignments can
happen after the conflict marker is set (see the counterexample).  What
does hold is that the *outer* loop performs no further iterations once
the conflict marker is set. -/
theorem binaryConflict_records_and_continues (lit : Int) (s : Internal) (w : Watch)
    (rest acc : List Watch) (h2 : w.size = 2) (hneg : s.vals w.blit < 0) :
    scanWatches lit s (w :: rest) acc =
      scanWatches lit { s with conflict := some w.clause } rest (acc ++ [w]) ∧
    ∀ (fuel : Nat) (t : Internal) (ci : Nat), t.conflict = some ci →
      propagateLoop fuel t = t := by
  constructor
  · exact scanWatches_binConflict lit s w rest acc (by omega) h2 hneg
  · intro fuel t ci hc
    exact propagateLoop_of_conflict fuel t ci hc

/-- Witness for C1 at the garbage binary clause of `C4state`. -/
theorem binaryConflict_records_and_continues_inst :
    (⟨1, 2, 0⟩ : Watch).size = 2 ∧ C4state.vals (⟨1, 2, 0⟩ : Watch).blit < 0 ∧
    (scanWatches 2 C4state [⟨1, 2, 0⟩] [] =
      scanWatches 2 { C4state with conflict := some 0 } [] ([] ++ [⟨1, 2, 0⟩]) ∧
    ∀ (fuel : Nat) (t : Internal) (ci : Nat), t.conflict = some ci →
      propagateLoop fuel t = t) :=
  ⟨rfl, by decide,
    binaryConflict_records_and_continues 2 C4state ⟨1, 2, 0⟩ [] [] rfl (by decide)⟩

/-- Counterexample to C1's "once the conflict marker is set, propagation
performs no further assignments": `C1state` satisfies the invariant, and
during the scan of the watch list of `2` the solver first assigns `-1`,
then records clause `0` (= `{1, 2}`) as the conflict, and then *still*
assigns `3` from the later binary watch — the final trail is
`[-2, -1, 3]` although the conflict was found before `3` was assigned. -/
theorem propagate_assigns_after_binary_conflict :
    Inv C1state ∧ (propagate C1state).conflict = some 0 ∧
      (propagate C1state).trail = [-2, -1, 3] :=
  ⟨Inv_C1state, by decide, by decide⟩

/-- C2 (confirmed).  Assuming the watch invariant on entry, after
`propagate` succeeds no non-garbage clause has exactly one unassigned
literal with all of its other literals false: propagation misses no
unit. -/
theorem propagate_no_missed_unit (s : Internal) (HI : Inv s)
    (hok : propagateOk s = true) :
    ∀ (ci : Nat) (c : Clause), (propagate s).arena[ci]? = some c →
      c.garbage = false →
      ¬ (∃ l ∈ c.lits, (propagate s).vals l = 0 ∧
          ∀ m ∈ c.lits, m ≠ l → (propagate s).vals m < 0) := by
  obtain ⟨htr, hv, har, hcf, hpr, hw, hvr, hsi⟩ := propagate_components s
  obtain ⟨H1, hfix⟩ := propagate_post s HI
  intro ci c hci hg hmiss
  obtain ⟨l, hl, hl0, hrest⟩ := hmiss
  rw [har] at hci
  rw [hv] at hl0
  have hcn : (propagateLoop (propagateFuel s) s).conflict = none := by
    rw [← hcf]
    unfold propagateOk at hok
    simpa using hok
  have hdone := hfix hcn
  rcases H1.propInv hcn ci c hci hg with hsat | hwa
  · obtain ⟨m, hm, hmpos⟩ := hsat
    by_cases hml : m = l
    · rw [hml] at hmpos
      omega
    · have h2 := hrest m hm hml
      rw [hv] at h2
      omega
  · have hlen : 2 ≤ c.lits.length := by
      obtain ⟨⟨w1, hw1, hwc1⟩, _⟩ := H1.watchedBoth ci c hci hg
      obtain ⟨c', hc', hsz, h2le, _⟩ := H1.watchOK _ w1 hw1
      rw [hwc1, hci] at hc'
      have hcc : c = c' := Option.some.inj hc'
      rw [hcc]
      omega
    have hres : ∀ x : Int, watchedPos c x →
        0 ≤ (propagateLoop (propagateFuel s) s).vals x := by
      intro x hx
      rcases hwa x hx with h0 | h0 | h0
      · exact h0
      · exfalso
        unfold pendingLit at h0
        rw [hdone, List.drop_length] at h0
        simp at h0
      · obtain ⟨_, w', hw', _⟩ := h0
        simp at hw'
    have h0l : c.lits.getD 0 0 = l := by
      by_contra hne
      have h2 := hrest _ (getD_mem (by omega)) hne
      rw [hv] at h2
      have := hres (c.lits.getD 0 0) (Or.inl rfl)
      omega
    have h1l : c.lits.getD 1 0 = l := by
      by_contra hne
      have h2 := hrest _ (getD_mem (by omega)) hne
      rw [hv] at h2
      have := hres (c.lits.getD 1 0) (Or.inr rfl)
      omega
    have hnd := (H1.clauseOK ci c hci).2.1
    exact nodup_getD_ne hnd (by omega) (by omega) (by omega) (h0l.trans h1l.symm)

/-- Witness for C2 on the empty state. -/
theorem propagate_no_missed_unit_inst :
    Inv demo0 ∧ propagateOk demo0 = true ∧
    (∀ (ci : Nat) (c : Clause), (propagate demo0).arena[ci]? = some c →
      c.garbage = false →
      ¬ (∃ l ∈ c.lits, (propagate demo0).vals l = 0 ∧
          ∀ m ∈ c.lits, m ≠ l → (propagate demo0).vals m < 0)) :=
  ⟨Inv_demo0, by decide, propagate_no_missed_unit demo0 Inv_demo0 (by decide)⟩

/-- C3 (confirmed).  Whenever `propagate` returns false, the conflict
marker references a clause of the arena all of whose literals are false
in the value store at return time. -/
theorem propagate_conflict_all_false (s : Internal) (HI : Inv s)
    (hfail : propagateOk s = false) :
    ∃ ci, (propagate s).conflict = some ci ∧
      ∃ c, (propagate s).arena[ci]? = some c ∧
        ∀ l ∈ c.lits, (propagate s).vals l < 0 := by
  obtain ⟨htr, hv, har, hcf, hpr, hw, hvr, hsi⟩ := propagate_components s
  obtain ⟨H1, _⟩ := propagate_post s HI
  have hcs : ∃ ci, (propagate s).conflict = some ci := by
    unfold propagateOk at hfail
    cases h : (propagate s).conflict with
    | none => rw [h] at hfail; simp at hfail
    | some ci => exact ⟨ci, rfl⟩
  obtain ⟨ci, hci⟩ := hcs
  have hci' : (propagateLoop (propagateFuel s) s).conflict = some ci := by
    rw [← hcf]
    exact hci
  obtain ⟨c, hc, hAF⟩ := H1.conflictOK ci hci'
  refine ⟨ci, hci, c, ?_, ?_⟩
  · rw [har]
    exact hc
  · intro l hl
    rw [hv]
    exact hAF l hl

/-- Witness for C3 on a state entered with the conflict marker set. -/
theorem propagate_conflict_all_false_inst :
    Inv confState ∧ propagateOk confState = false ∧
    (∃ ci, (propagate confState).conflict = some ci ∧
      ∃ c, (propagate confState).arena[ci]? = some c ∧
        ∀ l ∈ c.lits, (propagate confState).vals l < 0) :=
  ⟨Inv_confState, by decide,
    propagate_conflict_all_false confState Inv_confState (by decide)⟩

/-- C4 (corrected).  During a call to `propagate` the trail only grows
and the cursor is monotonically non-decreasing and never exceeds the
trail length, and success implies that the cursor equals the trail
length at return.  The converse of the final biconditional is *false*:
a conflict found while processing the last trail entry also leaves the
cursor at the trail length (see the counterexample, where the binary
fast path conflicts on a garbage clause). -/
theorem propagate_trail_cursor_monotone (s : Internal) (HI : Inv s) :
    (∃ u, (propagate s).trail = s.trail ++ u) ∧
    s.propagated ≤ (propagate s).propagated ∧
    (propagate s).propagated ≤ (propagate s).trail.length ∧
    (propagateOk s = true →
      (propagate s).propagated = (propagate s).trail.length) := by
  obtain ⟨htr, hv, har, hcf, hpr, hw, hvr, hsi⟩ := propagate_components s
  obtain ⟨H1, hfix⟩ := propagate_post s HI
  obtain ⟨_, ⟨u, hext⟩, hmono, _, _, _⟩ := loop_main (propagateFuel s) s HI
  refine ⟨⟨u, by rw [htr]; exact hext⟩, by rw [hpr]; exact hmono, ?_, ?_⟩
  · rw [hpr, htr]
    exact H1.curBound
  · intro hok
    have hcn : (propagateLoop (propagateFuel s) s).conflict = none := by
      rw [← hcf]
      unfold propagateOk at hok
      simpa using hok
    rw [hpr, htr]
    exact hfix hcn

/-- Witness for C4 on the empty state. -/
theorem propagate_trail_cursor_monotone_inst :
    Inv demo0 ∧
    ((∃ u, (propagate demo0).trail = demo0.trail ++ u) ∧
    demo0.propagated ≤ (propagate demo0).propagated ∧
    (propagate demo0).propagated ≤ (propagate demo0).trail.length ∧
    (propagateOk demo0 = true →
      (propagate demo0).propagated = (propagate demo0).trail.length)) :=
  ⟨Inv_demo0, propagate_trail_cursor_monotone demo0 Inv_demo0⟩

/-- Counterexample to C4's "cursor = trail length iff success":
`C4state` satisfies the invariant, yet `propagate` fails on it (the
garbage binary clause conflicts while the last trail entry is being
processed) with the cursor equal to the trail length at return. -/
theorem propagate_failure_at_trail_end :
    Inv C4state ∧ propagateOk C4state = false ∧
      (propagate C4state).propagated = (propagate C4state).trail.length :=
  ⟨Inv_C4state, by decide, by decide⟩

/-- C5 (corrected).  The replacement search on a clause with a cached
offset is the claimed two-phase scan — from the cached offset to the
end, then, only if everything there was false, from the first
non-watched literal up to the offset — but the cache is updated to the
position where the search *stopped* (the index of the literal found, or
the old offset when both phases fail), not to the first position
inspected. -/
theorem searchReplacement_two_phase (vals : Int → Int) (lits : List Int)
    (size pos : Nat) (hp2 : 2 ≤ pos) (hps : pos ≤ size) :
    twoPhaseSpec vals lits size pos (searchReplacement vals lits size pos true) := by
  unfold twoPhaseSpec
  by_cases hv1 : (findNonFalse vals lits pos size).2 < 0
  · by_cases hv2 : (findNonFalse vals lits 2 pos).2 < 0
    · right; right
      have he : searchReplacement vals lits size pos true =
          ((findNonFalse vals lits 2 pos).1, (findNonFalse vals lits 2 pos).2,
            (findNonFalse vals lits 2 pos).1) := by
        unfold searchReplacement
        rw [if_pos rfl, if_pos hv1]
      have hstop1 := findNonFalse_notFound vals lits pos size hps hv1
      have hstop2 := findNonFalse_notFound vals lits 2 pos hp2 hv2
      rw [he]
      refine ⟨?_, hv2, hstop2, hstop2⟩
      intro n h2 hn
      by_cases hc : n < pos
      · exact findNonFalse_before vals lits 2 pos hp2 n h2 (by omega)
      · exact findNonFalse_before vals lits pos size hps n (by omega) (by omega)
    · right; left
      have he : searchReplacement vals lits size pos true =
          ((findNonFalse vals lits 2 pos).1, (findNonFalse vals lits 2 pos).2,
            (findNonFalse vals lits 2 pos).1) := by
        unfold searchReplacement
        rw [if_pos rfl, if_pos hv1]
      have hstop1 := findNonFalse_notFound vals lits pos size hps hv1
      have hfound := findNonFalse_found vals lits 2 pos hp2 (by omega)
      rw [he]
      dsimp only
      refine ⟨?_, findNonFalse_start_le vals lits 2 pos hp2, hfound.1, by omega,
        hfound.2, findNonFalse_before vals lits 2 pos hp2, rfl⟩
      intro n h2 hn
      exact findNonFalse_before vals lits pos size hps n h2 (by omega)
  · left
    have he : searchReplacement vals lits size pos true =
        ((findNonFalse vals lits pos size).1, (findNonFalse vals lits pos size).2,
          (findNonFalse vals lits pos size).1) := by
      unfold searchReplacement
      rw [if_pos rfl, if_neg hv1]
    have hfound := findNonFalse_found vals lits pos size hps (by omega)
    rw [he]
    dsimp only
    exact ⟨findNonFalse_start_le vals lits pos size hps, hfound.1, by omega,
      hfound.2, findNonFalse_before vals lits pos size hps, rfl⟩

/-- Witness for C5 on the clause `[1, 2, 3, 4, 5]` with offset 2. -/
theorem searchReplacement_two_phase_inst :
    2 ≤ 2 ∧ 2 ≤ 5 ∧
    twoPhaseSpec cvals [1, 2, 3, 4, 5] 5 2 (searchReplacement cvals [1, 2, 3, 4, 5] 5 2 true) :=
  ⟨by decide, by decide,
    searchReplacement_two_phase cvals [1, 2, 3, 4, 5] 5 2 (by decide) (by decide)⟩

/-- Counterexample to C5's "the cache is updated to the first position
inspected": searching the clause `[1, 2, 3, 4, 5]` from cached offset 2
(where only the literal `3` at index 2 is false) stops at index 3, and
the cache is updated to 3, not to the first position inspected (2). -/
theorem searchReplacement_cache_not_first_inspected :
    searchReplacement cvals [1, 2, 3, 4, 5] 5 2 true = (3, 0, 3) ∧
    (searchReplacement cvals [1, 2, 3, 4, 5] 5 2 true).2.2 ≠ 2 := by
  have h : searchReplacement cvals [1, 2, 3, 4, 5] 5 2 true = (3, 0, 3) := by
    unfold searchReplacement
    rw [if_pos rfl]
    rw [findNonFalse, dif_pos (by omega : (2 : Nat) < 5)]
    norm_num [cvals, valsOf]
    rw [findNonFalse, dif_pos (by omega : (3 : Nat) < 5)]
    norm_num [cvals, valsOf]
  exact ⟨h, by rw [h]; decide⟩

/-- C6 (confirmed).  `inlined_assign (lit, reason)` on an unassigned
literal records the current level and trail position together with the
reason in the variable table, commits a permanent unit and bumps the
global fixed count exactly when the level is 0, writes both polarity
slots of the value store (making `lit` true and `-lit` false), updates
the saved phase only outside a simplification pass, records the current
fixed count as the variable's epoch, and appends the literal to the
trail, growing it by exactly one entry. -/
theorem inlined_assign_effects (s : Internal) (lit : Int) (r : Option Nat)
    (hz : lit ≠ 0) (hun : s.vals lit = 0) :
    (inlined_assign s lit r).vtab (vidx lit) = ⟨s.level, s.trail.length, r⟩ ∧
    (s.level = 0 → (inlined_assign s lit r).units = s.units ++ [lit] ∧
      (inlined_assign s lit r).stats.fixed = s.stats.fixed + 1) ∧
    (s.level ≠ 0 → (inlined_assign s lit r).units = s.units ∧
      (inlined_assign s lit r).stats.fixed = s.stats.fixed) ∧
    (inlined_assign s lit r).vals lit = 1 ∧
    (inlined_assign s lit r).vals (-lit) = -1 ∧
    (s.simplifying = false →
      (inlined_assign s lit r).phases (vidx lit) = sign lit) ∧
    (s.simplifying = true → (inlined_assign s lit r).phases = s.phases) ∧
    (inlined_assign s lit r).ftab (vidx lit) = (inlined_assign s lit r).stats.fixed ∧
    (inlined_assign s lit r).trail = s.trail ++ [lit] := by
  refine ⟨?_, ?_, ?_, assign_val_self s lit r hz, assign_val_negself s lit r hz,
    ?_, ?_, ?_, inlined_assign_trail s lit r⟩
  · simp only [inlined_assign, learn_unit_clause]
    split_ifs <;> simp [updF]
  · intro h
    simp only [inlined_assign, learn_unit_clause]
    split_ifs <;> simp_all
  · intro h
    simp only [inlined_assign, learn_unit_clause]
    split_ifs <;> simp_all
  · intro h
    simp only [inlined_assign, learn_unit_clause]
    split_ifs <;> simp_all [updF]
  · intro h
    simp only [inlined_assign, learn_unit_clause]
    split_ifs <;> simp_all
  · simp only [inlined_assign, learn_unit_clause]
    split_ifs <;> simp [updF]

/-- Witness for C6: assigning the literal 1 in the empty state. -/
theorem inlined_assign_effects_inst :
    (1 : Int) ≠ 0 ∧ demo0.vals 1 = 0 ∧
    (inlined_assign demo0 1 none).trail = demo0.trail ++ [1] :=
  ⟨by decide, by decide,
    (inlined_assign_effects demo0 1 none (by decide) (by decide)).2.2.2.2.2.2.2.2⟩

/-- C7 (confirmed).  Value symmetry: initially every literal is
unassigned and `value(lit) = -value(-lit)` holds; the property is
preserved by every assignment and by every `propagate` call (on states
satisfying the invariant); and it is equivalent to the spec's phrasing:
an unassigned literal and its negation both read unassigned, and an
assigned literal has exactly one of the pair true. -/
theorem value_symmetry :
    (∀ l : Int, initialVals (-l) = - initialVals l) ∧
    (∀ (s : Internal) (lit : Int) (r : Option Nat), lit ≠ 0 →
      (∀ l, s.vals (-l) = - s.vals l) →
      ∀ l, (inlined_assign s lit r).vals (-l) = - (inlined_assign s lit r).vals l) ∧
    (∀ s : Internal, Inv s →
      ∀ l, (propagate s).vals (-l) = - (propagate s).vals l) ∧
    (∀ v : Int → Int, (∀ l, v (-l) = - v l) →
      ∀ l : Int, (v l = 0 ↔ v (-l) = 0) ∧
        (v l ≠ 0 → (0 < v l ∧ v (-l) < 0) ∨ (v l < 0 ∧ 0 < v (-l)))) := by
  refine ⟨?_, ?_, ?_, ?_⟩
  · intro l
    simp [initialVals]
  · intro s lit r h hs
    exact assign_symm s lit r h hs
  · intro s HI l
    obtain ⟨H1, _⟩ := propagate_post s HI
    obtain ⟨_, hv, _, _, _, _, _, _⟩ := propagate_components s
    rw [hv]
    exact H1.symmV l
  · intro v hv l
    have := hv l
    constructor
    · constructor <;> intro h <;> omega
    · intro h
      omega

/-- C8 (confirmed).  The binary fast path never consults the clause's
garbage flag: for a watch of size 2 the conflict and assignment
behaviour (with the watched clause as reason) is derived from the
blocking literal alone, with no hypothesis about — and no access to —
the clause, while the garbage skip requires a non-binary watch. -/
theorem binary_path_ignores_garbage (lit : Int) (s : Internal) (w : Watch)
    (rest acc : List Watch) :
    (w.size = 2 → s.vals w.blit < 0 →
      scanWatches lit s (w :: rest) acc =
        scanWatches lit { s with conflict := some w.clause } rest (acc ++ [w])) ∧
    (w.size = 2 → s.vals w.blit = 0 →
      scanWatches lit s (w :: rest) acc =
        scanWatches lit (inlined_assign s w.blit (some w.clause)) rest (acc ++ [w])) ∧
    (¬ 0 < s.vals w.blit → ¬ w.size = 2 →
      (getClause s w.clause).garbage = true →
      scanWatches lit s (w :: rest) acc = scanWatches lit s rest (acc ++ [w])) := by
  refine ⟨?_, ?_, ?_⟩
  · intro h2 hb
    exact scanWatches_binConflict lit s w rest acc (by omega) h2 hb
  · intro h2 hb
    exact scanWatches_binAssign lit s w rest acc (by omega) h2 (by omega)
  · intro h1 h2 hg
    exact scanWatches_garbage lit s w rest acc h1 h2 hg

/-- C9 (confirmed).  Entering `propagate` with the conflict marker
already set: the loop body never runs — trail, cursor and value store
are unchanged and both propagation counters gain zero — yet in search
mode the conflict counter is still incremented, and the call returns
false. -/
theorem propagate_on_conflict_entry (s : Internal) (ci : Nat)
    (hc : s.conflict = some ci) :
    (propagate s).trail = s.trail ∧
    (propagate s).propagated = s.propagated ∧
    (propagate s).vals = s.vals ∧
    (propagate s).stats.propagations = s.stats.propagations ∧
    (propagate s).stats.probagations = s.stats.probagations ∧
    (s.simplifying = false →
      (propagate s).stats.conflicts = s.stats.conflicts + 1) ∧
    propagateOk s = false := by
  have hl : propagateLoop (propagateFuel s) s = s :=
    propagateLoop_of_conflict _ _ _ hc
  simp only [propagateOk, propagate, hl]
  split_ifs with h1 h2 h3 <;>
    simp_all [hc, Nat.sub_self]

/-- Witness for C9 on a state entered with the conflict marker set. -/
theorem propagate_on_conflict_entry_inst :
    confState.conflict = some 0 ∧
    ((propagate confState).trail = confState.trail ∧
    (propagate confState).propagated = confState.propagated ∧
    (propagate confState).vals = confState.vals ∧
    (propagate confState).stats.propagations = confState.stats.propagations ∧
    (propagate confState).stats.probagations = confState.stats.probagations ∧
    (confState.simplifying = false →
      (propagate confState).stats.conflicts = confState.stats.conflicts + 1) ∧
    propagateOk confState = false) :=
  ⟨rfl, propagate_on_conflict_entry confState 0 rfl⟩

/-- C10 (confirmed).  On states satisfying the invariant, after a
`propagate` call every clause carrying a cached search position has
`2 ≤ pos ≤ size`: the cache always points at or past the two watched
slots and at most one past the last literal.  (The invariant records
exactly this bound for every clause of the arena, and it is preserved
by every replacement search.) -/
theorem propagate_pos_in_range (s : Internal) (HI : Inv s) :
    ∀ (ci : Nat) (c : Clause), (propagate s).arena[ci]? = some c →
      c.havePos = true → 2 ≤ c.pos ∧ c.pos ≤ c.lits.length := by
  obtain ⟨htr, hv, har, hcf, hpr, hw, hvr, hsi⟩ := propagate_components s
  obtain ⟨H1, _⟩ := propagate_post s HI
  intro ci c hci hhp
  rw [har] at hci
  exact (H1.clauseOK ci c hci).2.2 hhp

/-- Witness for C10 on the empty state. -/
theorem propagate_pos_in_range_inst :
    Inv demo0 ∧
    (∀ (ci : Nat) (c : Clause), (propagate demo0).arena[ci]? = some c →
      c.havePos = true → 2 ≤ c.pos ∧ c.pos ≤ c.lits.length) :=
  ⟨Inv_demo0, propagate_pos_in_range demo0 Inv_demo0⟩

end CaDiCaL
